import Mathlib

/-!
Shallow embedding of the JSON → columnar ingestion pipeline of
`src/process_udl_json.py` (repository Cosmic-Insights), together with
theorems settling the specification claims about it.

Dynamically-typed Python cell values are modelled by the inductive `Value`;
pandas `DataFrame`s by `DF` (a column-name list plus rows as association
lists, an absent key standing for a NaN/NA cell); a raised Python exception
by an `Option`-valued result (`none` = exception propagates).
-/

mutual

/-- A cell / JSON value as it flows through the pipeline.
`vNum` models a 64-bit float by an exact rational (overflow/rounding are
irrelevant to the claims); `vTimestamp` is UTC microseconds since the epoch,
`vDate` is days since 1970-01-01 (UTC). -/
inductive Value where
  | vNull : Value
  | vBool (b : Bool) : Value
  | vInt (n : Int) : Value
  | vNum (q : ℚ) : Value
  | vStr (s : String) : Value
  | vBytes (bs : List Nat) : Value
  | vList (vs : VList) : Value
  | vDict (fs : VFields) : Value
  | vTimestamp (us : Int) : Value
  | vDate (d : Int) : Value
  deriving DecidableEq

/-- A list of JSON values (spelled out so the mutual induction stays
first-order). -/
inductive VList where
  | nil : VList
  | cons (v : Value) (vs : VList) : VList
  deriving DecidableEq

/-- The key/value fields of a JSON object, in document order. -/
inductive VFields where
  | nil : VFields
  | cons (k : String) (v : Value) (fs : VFields) : VFields
  deriving DecidableEq

end

open Value

/-- The replacement character U+FFFD used by `errors="replace"` decoding. -/
def replChar : Char := Char.ofNat 0xFFFD

/-- Is `b` a UTF-8 continuation byte (`0x80 ≤ b < 0xC0`)? -/
def utf8Cont (b : Nat) : Bool := 128 ≤ b && b < 192

/-- UTF-8 decoding with replacement-on-error, modelling Python
`bytes.decode("utf-8", errors="replace")`: each ill-formed byte is replaced
by U+FFFD and decoding continues.  (Overlong/surrogate rejection is elided;
no claim exercises those byte sequences.) -/
def utf8DecodeAux : List Nat → List Char
  | [] => []
  | b :: bs =>
    if b < 128 then Char.ofNat b :: utf8DecodeAux bs
    else if b < 194 then replChar :: utf8DecodeAux bs
    else if b < 224 then
      match bs with
      | c1 :: bs2 =>
        if utf8Cont c1 then Char.ofNat ((b - 192) * 64 + (c1 - 128)) :: utf8DecodeAux bs2
        else replChar :: utf8DecodeAux (c1 :: bs2)
      | [] => [replChar]
    else if b < 240 then
      match bs with
      | c1 :: c2 :: bs3 =>
        if utf8Cont c1 && utf8Cont c2 then
          Char.ofNat ((b - 224) * 4096 + (c1 - 128) * 64 + (c2 - 128)) :: utf8DecodeAux bs3
        else replChar :: utf8DecodeAux (c1 :: c2 :: bs3)
      | [c1] => replChar :: utf8DecodeAux [c1]
      | [] => [replChar]
    else if b < 245 then
      match bs with
      | c1 :: c2 :: c3 :: bs4 =>
        if utf8Cont c1 && utf8Cont c2 && utf8Cont c3 then
          Char.ofNat ((b - 240) * 262144 + (c1 - 128) * 4096 + (c2 - 128) * 64 + (c3 - 128))
            :: utf8DecodeAux bs4
        else replChar :: utf8DecodeAux (c1 :: c2 :: c3 :: bs4)
      | [c1, c2] => replChar :: utf8DecodeAux [c1, c2]
      | [c1] => replChar :: utf8DecodeAux [c1]
      | [] => [replChar]
    else replChar :: utf8DecodeAux bs
termination_by l => l.length
decreasing_by all_goals simp +arith [List.length]

/-- `bytes.decode("utf-8", errors="replace")` as a `String`. -/
def utf8DecodeReplace (bs : List Nat) : String := String.mk (utf8DecodeAux bs)

/-- JSON string escaping for one character (the escapes `json.dumps`
emits for the characters occurring in this development). -/
def jsonEscapeChar (c : Char) : String :=
  if c = '\\' then "\\\\"
  else if c = '"' then "\\\""
  else if c = '\n' then "\\n"
  else if c = '\t' then "\\t"
  else if c = '\r' then "\\r"
  else String.singleton c

/-- A JSON string literal (quote and escape), as `json.dumps` renders it. -/
def jsonQuote (s : String) : String :=
  "\"" ++ String.join (s.data.map jsonEscapeChar) ++ "\""

/-- Model of Python `repr`/`str` of a float (exercised by no claim; the
pipeline only ever compares these strings for equality with themselves). -/
def ratRepr (q : ℚ) : String :=
  if q.den = 1 then toString q.num ++ ".0"
  else toString q.num ++ "/" ++ toString q.den

mutual

/-- `json.dumps` on a parsed JSON value, with the default separators
`", "` and `": "`.  `json.dumps` raises `TypeError` on bytes, timestamps
and dates; the call sites in the source guard with
`isinstance(x, (list, dict))`, and values parsed from JSON never contain
those shapes nested inside a list/dict, so those branches are placeholders
that no claim reaches. -/
def jsonDumps : Value → String
  | vNull => "null"
  | vBool b => if b then "true" else "false"
  | vInt n => toString n
  | vNum q => ratRepr q
  | vStr s => jsonQuote s
  | vBytes _ => "<unserializable>"
  | vList vs => "[" ++ jsonDumpsList vs ++ "]"
  | vDict fs => "\x7b" ++ jsonDumpsFields fs ++ "\x7d"
  | vTimestamp _ => "<unserializable>"
  | vDate _ => "<unserializable>"

/-- The comma-joined rendering of a JSON array's elements. -/
def jsonDumpsList : VList → String
  | .nil => ""
  | .cons v .nil => jsonDumps v
  | .cons v vs => jsonDumps v ++ ", " ++ jsonDumpsList vs

/-- The comma-joined rendering of a JSON object's fields. -/
def jsonDumpsFields : VFields → String
  | .nil => ""
  | .cons k v .nil => jsonQuote k ++ ": " ++ jsonDumps v
  | .cons k v fs => jsonQuote k ++ ": " ++ jsonDumps v ++ ", " ++ jsonDumpsFields fs

end

/-- Model of Python `str()` restricted to the scalar values that can reach
the final branch of `_to_text` (null/bool/bytes/list/dict are intercepted
earlier there, so only the `vInt`/`vNum`/`vStr`/timestamp shapes matter). -/
def pyStr : Value → String
  | vNull => "None"
  | vBool b => if b then "True" else "False"
  | vInt n => toString n
  | vNum q => ratRepr q
  | vStr s => s
  | vBytes bs => utf8DecodeReplace bs
  | vList vs => jsonDumps (vList vs)
  | vDict fs => jsonDumps (vDict fs)
  | vTimestamp us => "ts:" ++ toString us
  | vDate d => "date:" ++ toString d

/-- `pd.isna` on a cell: NaN / NaT / NA / None all collapse to `vNull`. -/
def pd_isna (v : Value) : Bool := v = vNull

/-- `_to_text` (source lines 41–54): convert anything (including
bool/bytes) to a clean str, leaving NaN/NA as-is. -/
def _to_text (x : Value) : Value :=
  if pd_isna x then vNull
  else match x with
    | vList vs => vStr (jsonDumps (vList vs))
    | vDict fs => vStr (jsonDumps (vDict fs))
    | vBytes bs => vStr (utf8DecodeReplace bs)
    | vBool b => vStr (if b then "true" else "false")
    | x => vStr (pyStr x)

/-- The numeric value of a decimal digit, `none` otherwise. -/
def digitVal (c : Char) : Option Nat :=
  if c.isDigit then some (c.toNat - 48) else none

/-- Read a nonempty all-digit character list as a natural number. -/
def natOfDigits (cs : List Char) : Option Nat :=
  if cs.isEmpty then none
  else cs.foldl (fun acc c =>
    match acc, digitVal c with
    | some a, some d => some (a * 10 + d)
    | _, _ => none) (some 0)

/-- Like `natOfDigits` but an empty list reads as `0` (for the integer or
fractional half of a decimal literal, of which only one may be empty). -/
def natOfDigits0 (cs : List Char) : Option Nat :=
  cs.foldl (fun acc c =>
    match acc, digitVal c with
    | some a, some d => some (a * 10 + d)
    | _, _ => none) (some 0)

/-- The unsigned decimal forms accepted by `pd.to_numeric`'s string
parsing, restricted to plain `digits[.digits]` literals (exponent and
inf/nan spellings are elided; no claim exercises them), as a
numerator/denominator pair. -/
def parseUnsignedParts (cs : List Char) : Option (Nat × Nat) :=
  match cs.splitOn '.' with
  | [ip] => (natOfDigits ip).map (fun n => (n, 1))
  | [ip, fp] =>
    if ip.isEmpty && fp.isEmpty then none
    else
      match natOfDigits0 ip, natOfDigits0 fp with
      | some a, some b => some (a * 10 ^ fp.length + b, 10 ^ fp.length)
      | _, _ => none
  | _ => none

/-- Python `str.strip()`: drop leading and trailing whitespace. -/
def pyStrip (s : String) : String :=
  String.mk (((s.data.dropWhile Char.isWhitespace).reverse.dropWhile Char.isWhitespace).reverse)

/-- Signed decimal literal parsing (Python `float()` also strips
surrounding whitespace). -/
def parseDecimal (s : String) : Option ℚ :=
  match (pyStrip s).data with
  | [] => none
  | '+' :: rest => (parseUnsignedParts rest).map (fun p => mkRat p.1 p.2)
  | '-' :: rest => (parseUnsignedParts rest).map (fun p => mkRat (-(p.1 : Int)) p.2)
  | cs => (parseUnsignedParts cs).map (fun p => mkRat p.1 p.2)

/-- One cell under `pd.to_numeric(·, errors="coerce")`: numbers and bools
convert, parsable strings convert, everything else degrades to NaN
(`vNull`) — never a raised failure. -/
def pd_to_numeric_val : Value → Value
  | vNull => vNull
  | vBool b => vInt (if b then 1 else 0)
  | vInt n => vInt n
  | vNum q => vNum q
  | vStr s =>
    match parseDecimal s with
    | some q => vNum q
    | none => vNull
  | _ => vNull

/-- One cell under `.astype("Int64")` applied to the result of
`pd.to_numeric`: NA stays NA, integral values cast, but a non-integral
float raises (`none`) — pandas `TypeError: cannot safely cast
non-equivalent float64 to int64`. -/
def astype_Int64_cell : Value → Option Value
  | vNull => some vNull
  | vInt n => some (vInt n)
  | vNum q => if q.den = 1 then some (vInt q.num) else none
  | v => some v

/-- Microseconds per UTC day. -/
def usPerDay : Int := 86400000000

/-- Days from 1970-01-01 to the civil date `y-m-d` (proleptic Gregorian,
the standard era-based algorithm). -/
def daysFromCivil (y m d : Int) : Int :=
  let y1 := if m ≤ 2 then y - 1 else y
  let era := Int.fdiv y1 400
  let yoe := y1 - era * 400
  let doy := Int.fdiv (153 * (m + (if 2 < m then -3 else 9)) + 2) 5 + d - 1
  let doe := yoe * 365 + Int.fdiv yoe 4 - Int.fdiv yoe 100 + doy
  era * 146097 + doe - 719468

/-- Two decimal digits. -/
def twoDigits (a b : Char) : Option Nat :=
  match digitVal a, digitVal b with
  | some x, some y => some (x * 10 + y)
  | _, _ => none

/-- Four decimal digits. -/
def fourDigits (a b c d : Char) : Option Nat :=
  match twoDigits a b, twoDigits c d with
  | some x, some y => some (x * 100 + y)
  | _, _ => none

/-- Fractional seconds in microseconds from the digit list after the
decimal point (padded or truncated to 6 digits). -/
def fracToUs (f : Nat) (len : Nat) : Int :=
  if len ≤ 6 then (f * 10 ^ (6 - len) : Nat) else (f / 10 ^ (len - 6) : Nat)

/-- The fractional-seconds-and-UTC-zone tail of an ISO timestamp:
`""`, `"Z"`, `"+00:00"`, or `.digits` followed by one of those. -/
def parseFracTz : List Char → Option Int
  | [] => some 0
  | ['Z'] => some 0
  | ['+', '0', '0', ':', '0', '0'] => some 0
  | '.' :: rest =>
    let digits := rest.takeWhile Char.isDigit
    let tz := rest.dropWhile Char.isDigit
    if digits.isEmpty then none
    else
      match natOfDigits digits, tz with
      | some f, [] => some (fracToUs f digits.length)
      | some f, ['Z'] => some (fracToUs f digits.length)
      | some f, ['+', '0', '0', ':', '0', '0'] => some (fracToUs f digits.length)
      | _, _ => none
  | _ => none

/-- ISO-8601 timestamp parsing to UTC microseconds since the epoch,
modelling the formats `pd.to_datetime(·, utc=True)` accepts for this
dataset: `YYYY-MM-DD`, optionally followed by `T` (or space) and
`HH:MM:SS` with optional fractional seconds and a UTC zone suffix.
Anything else is unparsable (`none`). -/
def parseIsoTs (s : String) : Option Int :=
  match s.data with
  | y1 :: y2 :: y3 :: y4 :: '-' :: o1 :: o2 :: '-' :: a1 :: a2 :: rest =>
    match fourDigits y1 y2 y3 y4, twoDigits o1 o2, twoDigits a1 a2 with
    | some y, some mo, some dy =>
      if 1 ≤ mo && mo ≤ 12 && 1 ≤ dy && dy ≤ 31 then
        match rest with
        | [] => some (daysFromCivil y mo dy * usPerDay)
        | sep :: h1 :: h2 :: ':' :: m1 :: m2 :: ':' :: s1 :: s2 :: tail =>
          if sep = 'T' || sep = ' ' then
            match twoDigits h1 h2, twoDigits m1 m2, twoDigits s1 s2 with
            | some hh, some mi, some ss =>
              if hh ≤ 23 && mi ≤ 59 && ss ≤ 59 then
                match parseFracTz tail with
                | some frac => some (daysFromCivil y mo dy * usPerDay
                    + ((hh * 3600 + mi * 60 + ss : Nat) : Int) * 1000000 + frac)
                | none => none
              else none
            | _, _, _ => none
          else none
        | _ => none
      else none
    | _, _, _ => none
  | _ => none

/-- One cell under `pd.to_datetime(·, errors="coerce", utc=True)`:
timestamps pass through, parsable strings convert, integers are read as
nanoseconds since the epoch, everything else degrades to NaT (`vNull`) —
never a raised failure. -/
def pd_to_datetime_val : Value → Value
  | vNull => vNull
  | vTimestamp t => vTimestamp t
  | vStr s =>
    match parseIsoTs s with
    | some t => vTimestamp t
    | none => vNull
  | vInt n => vTimestamp (Int.fdiv n 1000)
  | vNum q => vTimestamp (Int.fdiv ⌊q⌋ 1000)
  | _ => vNull

/-- `.dt.date` on one cell of a UTC datetime column: the UTC calendar day
(NaT stays null). -/
def ts_date : Value → Value
  | vTimestamp us => vDate (Int.fdiv us usPerDay)
  | _ => vNull

/-- A normalized row: column name ↦ cell value, an absent key standing for
a NaN/NA cell (as `pd.json_normalize` fills missing keys with NaN). -/
abbrev Row := List (String × Value)

/-- A pandas DataFrame: its column names plus its rows in order. -/
structure DF where
  columns : List String
  rows : List Row
  deriving DecidableEq

/-- The cell of row `r` in column `c`; an absent key is a null cell. -/
def getCell (r : Row) (c : String) : Value := (r.lookup c).getD vNull

/-- Apply `f` to the cell of column `c` in one row (absent = NaN cells stay
absent; every `f` the pipeline uses maps null to null). -/
def rowMap (c : String) (f : Value → Value) (r : Row) : Row :=
  r.map (fun kv => if kv.1 = c then (kv.1, f kv.2) else kv)

/-- `df[col] = df[col].apply(f)` guarded by `if col in df.columns`. -/
def mapCol (c : String) (f : Value → Value) (df : DF) : DF :=
  if df.columns.contains c then { df with rows := df.rows.map (rowMap c f) }
  else df

/-- Option-valued `List.map`: `none` as soon as `f` fails (a raised
exception aborts the whole column operation). -/
def mapOpt (f : α → Option β) : List α → Option (List β)
  | [] => some []
  | a :: as =>
    match f a with
    | none => none
    | some b => (mapOpt f as).map (b :: ·)

/-- Failable per-row column update. -/
def rowMapE (c : String) (f : Value → Option Value) (r : Row) : Option Row :=
  mapOpt (fun kv => if kv.1 = c then (f kv.2).map (fun v => (kv.1, v)) else some kv) r

/-- `df[col] = f(df[col])` for a failable `f`, guarded on column presence. -/
def mapColE (c : String) (f : Value → Option Value) (df : DF) : Option DF :=
  if df.columns.contains c then
    (mapOpt (rowMapE c f) df.rows).map (fun rs => { df with rows := rs })
  else some df

/-- Source line 26: columns we will try to parse as datetimes. -/
def DATE_COLS : List String := ["epoch", "createdAt", "effectiveFrom", "effectiveUntil"]

/-- Source lines 29–33: known numeric columns coerced to floats. -/
def NUMERIC_AS_FLOAT : List String :=
  ["agom", "apogee", "perigee", "semiMajorAxis", "period",
   "eccentricity", "inclination", "meanAnomaly", "raan", "argOfPerigee",
   "bStar", "meanMotion", "meanMotionDot", "meanMotionDDot", "ballisticCoeff"]

/-- Source line 36: nullable integer candidates. -/
def NUMERIC_AS_INT : List String :=
  ["satNo", "revNo", "idElset", "idOnOrbit", "idOrbitDetermination"]

/-- Source line 39: columns that may be list/dict → stringify. -/
def OBJECTY_TO_JSON : List String := ["tags"]

/-- Source lines 57–60: columns always forced to string. -/
def ALWAYS_STR_COLUMNS : List String :=
  ["uct", "classificationMarking", "origin", "source", "sourceDL",
   "descriptor", "createdBy", "transactionId", "tags"]

/-- Source line 23: keep ALL columns by default. -/
def COLUMNS_TO_KEEP : Option (List String) := none

/-- `VFields` as an association list. -/
def VFields.toList : VFields → List (String × Value)
  | .nil => []
  | .cons k v fs => (k, v) :: VFields.toList fs

/-- `VList` as a list. -/
def VList.toList : VList → List Value
  | .nil => []
  | .cons v vs => v :: VList.toList vs

/-- One record under `pd.json_normalize(·, max_level=1)`: a top-level
field whose value is an object is flattened one level into `a.b`-named
columns; any other value (scalars, lists, deeper objects inside those)
passes through.  `json_normalize` is only ever applied to JSON objects
here. -/
def flattenRecord : Value → Row
  | vDict fs =>
    (VFields.toList fs).flatMap (fun kv =>
      match kv.2 with
      | vDict gs => (VFields.toList gs).map (fun g => (kv.1 ++ "." ++ g.1, g.2))
      | v => [(kv.1, v)])
  | _ => []

/-- Accumulate the keys of one row that are not yet listed. -/
def addKeys (acc : List String) (r : Row) : List String :=
  r.foldl (fun acc2 kv => if acc2.contains kv.1 then acc2 else acc2 ++ [kv.1]) acc

/-- The DataFrame's columns: union of the rows' keys in order of first
appearance. -/
def unionCols (rows : List Row) : List String :=
  rows.foldl addKeys []

/-- `pd.json_normalize(records, max_level=1)` (source line 108). -/
def json_normalize (records : List Value) : DF :=
  let rows := records.map flattenRecord
  { columns := unionCols rows, rows := rows }

/-- Is the cell an int or a float? -/
def numericLike : Value → Bool
  | vInt _ => true
  | vNum _ => true
  | _ => false

/-- Is the cell a boolean? -/
def isBoolV : Value → Bool
  | vBool _ => true
  | _ => false

/-- Is the cell a list or a dict? -/
def isObjLike : Value → Bool
  | vList _ => true
  | vDict _ => true
  | _ => false

/-- Is the cell a timestamp? -/
def isTsV : Value → Bool
  | vTimestamp _ => true
  | _ => false

/-- The cells of column `c`, one per row (absent = null). -/
def colCells (df : DF) (c : String) : List Value := df.rows.map (fun r => getCell r c)

/-- Does pandas give this column the `object` dtype?  Pure numeric columns
(`int64`/`float64`, NaN included), all-boolean columns without nulls
(`bool`) and datetime columns are not `object`; everything else —
strings, lists, dicts, bytes, mixtures, bools with nulls — is. -/
def colDtypeObject (cells : List Value) : Bool :=
  let nn := cells.filter (fun v => !pd_isna v)
  !(nn.all numericLike || (nn.all isBoolV && nn.length = cells.length) || nn.all isTsV)

/-- Source lines 111–113: keep a subset of columns if requested (the
module constant is `None`, so this is the identity in the shipped
configuration; an empty list is falsy in Python and also skips). -/
def reindexKeep (df : DF) : DF :=
  match COLUMNS_TO_KEEP with
  | none => df
  | some keep =>
    if keep.isEmpty then df
    else
      let cols := keep.filter (fun c => df.columns.contains c)
      { columns := cols, rows := df.rows.map (fun r => r.filter (fun kv => cols.contains kv.1)) }

/-- `lambda x: json.dumps(x) if isinstance(x, (list, dict)) else x`. -/
def stringifyObjCell (x : Value) : Value :=
  match x with
  | vList vs => vStr (jsonDumps (vList vs))
  | vDict fs => vStr (jsonDumps (vDict fs))
  | x => x

/-- Source lines 116–118: stringify the known list/dict columns. -/
def stepObjecty (df : DF) : DF :=
  OBJECTY_TO_JSON.foldl (fun acc col => mapCol col stringifyObjCell acc) df

/-- Source lines 121–126: auto-stringify any other `object` column whose
first 10 non-null values include a list or dict. -/
def stepAutoStringify (df : DF) : DF :=
  df.columns.foldl (fun acc col =>
    if colDtypeObject (colCells acc col) then
      let sample := ((colCells acc col).filter (fun v => !pd_isna v)).take 10
      if sample.any isObjLike then mapCol col stringifyObjCell acc else acc
    else acc) df

/-- Source lines 129–131: coerce the known numeric columns to floats with
`errors="coerce"`. -/
def stepFloats (df : DF) : DF :=
  NUMERIC_AS_FLOAT.foldl (fun acc col => mapCol col pd_to_numeric_val acc) df

/-- One nullable-integer cell: `pd.to_numeric(·, errors="coerce")`
followed by `.astype("Int64")`. -/
def intCoerceCell (v : Value) : Option Value := astype_Int64_cell (pd_to_numeric_val v)

/-- Failable fold of a per-cell column operation over several columns. -/
def foldColsE (cols : List String) (f : Value → Option Value) (df : DF) : Option DF :=
  match cols with
  | [] => some df
  | c :: cs =>
    match mapColE c f df with
    | none => none
    | some df2 => foldColsE cs f df2

/-- Source lines 134–136: coerce the nullable-integer columns. -/
def stepInts (df : DF) : Option DF := foldColsE NUMERIC_AS_INT intCoerceCell df

/-- Source lines 139–141: force the known metadata columns to string. -/
def stepAlwaysStr (df : DF) : DF :=
  ALWAYS_STR_COLUMNS.foldl (fun acc col => mapCol col _to_text acc) df

/-- Is the cell a bool, bytes or bytearray? -/
def isBoolOrBytes : Value → Bool
  | vBool _ => true
  | vBytes _ => true
  | _ => false

/-- Source lines 144–148: sanitize any remaining `object` column (outside
the always-string list) whose first 20 non-null values include a bool or
bytes. -/
def stepSanitize (df : DF) : DF :=
  df.columns.foldl (fun acc col =>
    if colDtypeObject (colCells acc col) && !ALWAYS_STR_COLUMNS.contains col then
      let sample := ((colCells acc col).filter (fun v => !pd_isna v)).take 20
      if sample.any isBoolOrBytes then mapCol col _to_text acc else acc
    else acc) df

/-- Source lines 151–153: parse the datetime columns with
`errors="coerce", utc=True`. -/
def stepDates (df : DF) : DF :=
  DATE_COLS.foldl (fun acc c => mapCol c pd_to_datetime_val acc) df

/-- Overwrite (or create) the cell of column `c` in one row. -/
def setCell (r : Row) (c : String) (v : Value) : Row :=
  (r.filter (fun kv => kv.1 ≠ c)) ++ [(c, v)]

/-- Source lines 156–157: derive the partition column `epoch_date` from
`epoch` (day part), for every row, when `epoch` is present. -/
def setColDate (df : DF) : DF :=
  if df.columns.contains "epoch" then
    { columns := if df.columns.contains "epoch_date" then df.columns
                 else df.columns ++ ["epoch_date"],
      rows := df.rows.map (fun r => setCell r "epoch_date" (ts_date (getCell r "epoch"))) }
  else df

/-- `normalize_chunk` (source lines 107–159): flatten, trim, stringify,
coerce floats, coerce nullable ints (the one step that can raise), force
strings, sanitize, parse dates, derive the partition column.  `none`
models a raised exception. -/
def normalize_chunk (records : List Value) : Option DF :=
  let df0 := json_normalize records
  let df1 := reindexKeep df0
  let df2 := stepObjecty df1
  let df3 := stepAutoStringify df2
  let df4 := stepFloats df3
  match stepInts df4 with
  | none => none
  | some df5 =>
    let df6 := stepAlwaysStr df5
    let df7 := stepSanitize df6
    let df8 := stepDates df7
    some (setColDate df8)

/-- Source line 183: the dedup key columns — every one of
`satNo`, `epoch`, `idElset` that is present, in that priority order. -/
def dedupKeyCols (df : DF) : List String :=
  ["satNo", "epoch", "idElset"].filter (fun c => df.columns.contains c)

/-- The key tuple of a row for the given key columns. -/
def keyOf (keys : List String) (r : Row) : List Value :=
  keys.map (getCell r)

/-- Sort rank of a cell by type; nulls sort last (`na_position="last"`). -/
def valueRank : Value → Nat
  | vNull => 10
  | vBool _ => 0
  | vInt _ => 1
  | vNum _ => 2
  | vStr _ => 3
  | vBytes _ => 4
  | vList _ => 5
  | vDict _ => 6
  | vTimestamp _ => 7
  | vDate _ => 8

/-- An ascending comparison on cells for `sort_values`: same-typed
scalars compare by value, otherwise by type rank (within one normalized
column all non-null cells share a type, so the cross-type branch only
orders nulls last). -/
def valueLe (a b : Value) : Bool :=
  match a, b with
  | vBool x, vBool y => !x || y
  | vInt x, vInt y => x ≤ y
  | vNum x, vNum y => x ≤ y
  | vStr x, vStr y => x ≤ y
  | vTimestamp x, vTimestamp y => x ≤ y
  | vDate x, vDate y => x ≤ y
  | a, b => valueRank a ≤ valueRank b

/-- Lexicographic ascending comparison of key tuples. -/
def keyLe : List Value → List Value → Bool
  | [], _ => true
  | _ :: _, [] => false
  | a :: as, b :: bs => if a = b then keyLe as bs else valueLe a b

/-- Insert a row into an already-sorted list. -/
def insertSorted (le : Row → Row → Bool) (r : Row) : List Row → List Row
  | [] => [r]
  | x :: xs => if le r x then r :: x :: xs else x :: insertSorted le r xs

/-- `df.sort_values(keys)`: the rows in ascending key order (pandas'
default quicksort fixes no order among equal keys, so any ascending
reordering is a faithful model). -/
def sortRows (le : Row → Row → Bool) : List Row → List Row
  | [] => []
  | r :: rs => insertSorted le r (sortRows le rs)

/-- `df.drop_duplicates(subset=keys, keep="last")`: keep a row exactly
when no later row has the same key tuple. -/
def dropDupLast (key : Row → List Value) : List Row → List Row
  | [] => []
  | r :: rs =>
    if rs.any (fun r2 => key r2 = key r) then dropDupLast key rs
    else r :: dropDupLast key rs

/-- `dedupe_keys` (source lines 182–186). -/
def dedupe_keys (df : DF) : DF :=
  let keys := dedupKeyCols df
  if keys.isEmpty then df
  else
    { df with
      rows := dropDupLast (keyOf keys)
        (sortRows (fun a b => keyLe (keyOf keys a) (keyOf keys b)) df.rows) }

/-- The partition-directory label a row is written under: `some d` for the
Hive directory `epoch_date=<date d>`, `none` for the null-partition
fallback directory (pyarrow's `__HIVE_DEFAULT_PARTITION__`, which is not
keyed by a date). -/
def partitionLabel (r : Row) : Option Int :=
  match getCell r "epoch_date" with
  | vDate d => some d
  | _ => none

/-- The distinct partition labels of a batch, in first-appearance order. -/
def distinctLabels (rows : List Row) : List (Option Int) :=
  rows.foldl (fun acc r =>
    if acc.contains (partitionLabel r) then acc else acc ++ [partitionLabel r]) []

/-- Is the column a pandas datetime column (`is_datetime64_any_dtype`)? -/
def colIsDatetime (cells : List Value) : Bool :=
  (cells.filter (fun v => !pd_isna v)).all isTsV && cells.any (fun v => !pd_isna v)

/-- `write_chunk` (source lines 188–204) abstracted to the partition
layout it produces: the empty batch is a no-op; a still-datetime
`epoch_date` is first reduced to its day; with `epoch_date` present the
rows are grouped into one directory per distinct partition value
(null-keyed rows go to the non-date fallback directory); without it the
whole batch lands unpartitioned. -/
def write_chunk (df0 : DF) : List (Option Int × List Row) :=
  if df0.rows.isEmpty then []
  else
    let df := if df0.columns.contains "epoch_date" && colIsDatetime (colCells df0 "epoch_date")
      then mapCol "epoch_date" ts_date df0 else df0
    if df.columns.contains "epoch_date" then
      (distinctLabels df.rows).map (fun l => (l, df.rows.filter (fun r => partitionLabel r = l)))
    else [(none, df.rows)]

/-- `detect_format` (source lines 71–74): read the FIRST byte of the file
(`f.read(1)`, empty read for an empty file) and report `"array"` exactly
when it is `[`.  File contents are modelled as the decoded string; `[` is
ASCII, so its first byte is `[` iff its first character is. -/
def detect_format (content : String) : String :=
  if content.data.head? = some '[' then "array" else "ndjson"

/-- The lines Python file iteration yields (newline terminators are
dropped here; the source `strip()`s them away anyway). -/
def fileLines (content : String) : List String :=
  if content = "" then [] else content.splitOn "\n"

/-- Skip JSON insignificant whitespace. -/
def skipWs : List Char → List Char
  | c :: cs => if c = ' ' || c = '\t' || c = '\n' || c = '\r' then skipWs cs else c :: cs
  | [] => []

/-- The opening brace character. -/
def lbrace : Char := Char.ofNat 123

/-- The closing brace character. -/
def rbrace : Char := Char.ofNat 125

/-- The single-character JSON string escapes. -/
def jsonUnescape (e : Char) : Option Char :=
  if e = '"' then some '"'
  else if e = '\\' then some '\\'
  else if e = '/' then some '/'
  else if e = 'n' then some '\n'
  else if e = 't' then some '\t'
  else if e = 'r' then some '\r'
  else if e = 'b' then some (Char.ofNat 8)
  else if e = 'f' then some (Char.ofNat 12)
  else none

/-- A JSON string body after the opening quote, up to the closing quote
(`\uXXXX` escapes are elided from the model). -/
def parseJsonStrAux : List Char → Option (List Char × List Char)
  | [] => none
  | '"' :: rest => some ([], rest)
  | '\\' :: e :: rest =>
    match jsonUnescape e with
    | some c => (parseJsonStrAux rest).map (fun p => (c :: p.1, p.2))
    | none => none
  | c :: rest => (parseJsonStrAux rest).map (fun p => (c :: p.1, p.2))

/-- A JSON string literal body as a `String`. -/
def parseJsonStr (cs : List Char) : Option (String × List Char) :=
  (parseJsonStrAux cs).map (fun p => (String.mk p.1, p.2))

/-- A JSON number: optional minus, digits, optional fraction (exponents
are elided from the model). -/
def parseJsonNumber (cs : List Char) : Option (Value × List Char) :=
  let signed := match cs with
    | '-' :: r => (true, r)
    | _ => (false, cs)
  let ip := signed.2.takeWhile Char.isDigit
  let rest1 := signed.2.dropWhile Char.isDigit
  if ip.isEmpty then none
  else
    match natOfDigits ip with
    | none => none
    | some n =>
      match rest1 with
      | '.' :: rest2 =>
        let fp := rest2.takeWhile Char.isDigit
        let rest3 := rest2.dropWhile Char.isDigit
        if fp.isEmpty then none
        else
          match natOfDigits fp with
          | none => none
          | some f =>
            let num : Int := (n * 10 ^ fp.length + f : Nat)
            some (vNum (mkRat (if signed.1 then -num else num) (10 ^ fp.length)), rest3)
      | _ => some (vInt (if signed.1 then -(n : Int) else (n : Int)), rest1)

mutual

/-- Fueled recursive-descent JSON value parsing, modelling `json.loads`'s
grammar (fuel is always ample at the call site). -/
def parseJsonVal : Nat → List Char → Option (Value × List Char)
  | 0, _ => none
  | fuel + 1, cs =>
    match skipWs cs with
    | [] => none
    | 'n' :: 'u' :: 'l' :: 'l' :: rest => some (vNull, rest)
    | 't' :: 'r' :: 'u' :: 'e' :: rest => some (vBool true, rest)
    | 'f' :: 'a' :: 'l' :: 's' :: 'e' :: rest => some (vBool false, rest)
    | '"' :: rest => (parseJsonStr rest).map (fun p => (vStr p.1, p.2))
    | '[' :: rest =>
      match skipWs rest with
      | ']' :: rest2 => some (vList .nil, rest2)
      | rest2 => parseJsonElems fuel rest2
    | c :: rest =>
      if c = lbrace then
        match skipWs rest with
        | c2 :: rest2 =>
          if c2 = rbrace then some (vDict .nil, rest2)
          else parseJsonFields fuel (c2 :: rest2)
        | [] => none
      else parseJsonNumber (c :: rest)

/-- The elements of a nonempty JSON array, including the closing `]`. -/
def parseJsonElems : Nat → List Char → Option (Value × List Char)
  | 0, _ => none
  | fuel + 1, cs =>
    match parseJsonVal fuel cs with
    | none => none
    | some (v, rest) =>
      match skipWs rest with
      | ',' :: rest2 =>
        match parseJsonElems fuel rest2 with
        | some (vList vs, rest3) => some (vList (.cons v vs), rest3)
        | _ => none
      | ']' :: rest2 => some (vList (.cons v .nil), rest2)
      | _ => none

/-- The fields of a nonempty JSON object, including the closing brace. -/
def parseJsonFields : Nat → List Char → Option (Value × List Char)
  | 0, _ => none
  | fuel + 1, cs =>
    match skipWs cs with
    | '"' :: rest =>
      match parseJsonStr rest with
      | none => none
      | some (k, rest1) =>
        match skipWs rest1 with
        | ':' :: rest2 =>
          match parseJsonVal fuel rest2 with
          | none => none
          | some (v, rest3) =>
            match skipWs rest3 with
            | ',' :: rest4 =>
              match parseJsonFields fuel rest4 with
              | some (vDict fs, rest5) => some (vDict (.cons k v fs), rest5)
              | _ => none
            | c :: rest4 =>
              if c = rbrace then some (vDict (.cons k v .nil), rest4) else none
            | [] => none
        | _ => none
    | _ => none

end

/-- `json.loads` on one stripped line: parse one JSON value and require
only whitespace after it. -/
def json_loads (s : String) : Option Value :=
  match parseJsonVal (2 * s.length + 2) s.data with
  | some (v, rest) => if (skipWs rest).isEmpty then some v else none
  | none => none

/-- `iter_records_ndjson` (source lines 76–81): strip each line, skip the
blank ones, `json.loads` the rest; a parse failure (a raised
`json.JSONDecodeError`) aborts the whole file (`none`). -/
def iter_records_ndjson : List String → Option (List Value)
  | [] => some []
  | l :: ls =>
    let t := pyStrip l
    if t = "" then iter_records_ndjson ls
    else
      match json_loads t with
      | none => none
      | some v => (iter_records_ndjson ls).map (v :: ·)

/-- The loop body of `to_chunks` (source lines 97–105): `buf` is the
accumulator; a batch is yielded as soon as it reaches `chunk_size`, and a
nonempty leftover is yielded at the end. -/
def to_chunksAux (chunk_size : Nat) : List α → List α → List (List α)
  | [], buf => if buf.isEmpty then [] else [buf]
  | x :: it, buf =>
    let buf2 := buf ++ [x]
    if chunk_size ≤ buf2.length then buf2 :: to_chunksAux chunk_size it []
    else to_chunksAux chunk_size it buf2

/-- `to_chunks` (source lines 97–105), default chunk size 50,000. -/
def to_chunks (iterable : List α) (chunk_size : Nat := 50000) : List (List α) :=
  to_chunksAux chunk_size iterable []

/-- The `i`-th row of a DataFrame (empty row out of range). -/
def rowAt (df : DF) (i : Nat) : Row := df.rows.getD i []

/-- The cell at row `i`, column `c`. -/
def cellAt (df : DF) (i : Nat) (c : String) : Value := getCell (rowAt df i) c

/-- Every key occurring in a row is listed among the DataFrame's columns
(an invariant of every DataFrame the pipeline builds). -/
def colsCover (df : DF) : Prop :=
  ∀ r ∈ df.rows, ∀ kv ∈ r, df.columns.contains kv.1 = true

/-- The first non-whitespace character of the file. -/
def firstNonWsChar (content : String) : Option Char :=
  (content.data.dropWhile Char.isWhitespace).head?

/-- Modelled from the spec's words (for comparison with `detect_format`,
which is translated from the source): "determines format by inspecting
the first non-whitespace byte (`[` ⇒ array-of-objects; otherwise ⇒
newline-delimited objects)". -/
def detect_format_spec (content : String) : String :=
  if firstNonWsChar content = some '[' then "array" else "ndjson"

/-- A batch with `satNo` and `epoch` columns and two rows that share a
`satNo` but differ in `epoch` (counterexample data for the dedup-key
claim). -/
def c2df : DF :=
  DF.mk ["satNo", "epoch"]
    [[("satNo", vInt 1), ("epoch", vTimestamp 0)],
     [("satNo", vInt 1), ("epoch", vTimestamp 86400000000)]]

/-- A batch with none of the dedup key columns. -/
def c2dfNoKeys : DF := DF.mk ["foo"] [[("foo", vInt 1)]]

/-- Two raw records: one with a parsable `epoch`, one without `epoch`. -/
def c3recs : List Value :=
  [vDict (.cons "satNo" (vInt 5) (.cons "epoch" (vStr "2024-01-01T00:00:00Z") .nil)),
   vDict (.cons "satNo" (vInt 6) .nil)]

/-- `normalize_chunk c3recs`, written out. -/
def c3df : DF :=
  DF.mk ["satNo", "epoch", "epoch_date"]
    [[("satNo", vInt 5), ("epoch", vTimestamp 1704067200000000), ("epoch_date", vDate 19723)],
     [("satNo", vInt 6), ("epoch_date", vNull)]]

/-- The first normalized row of `c3df`. -/
def c3row : Row :=
  [("satNo", vInt 5), ("epoch", vTimestamp 1704067200000000), ("epoch_date", vDate 19723)]

/-- One raw record whose `uct` field is boolean `true`. -/
def c8recs : List Value := [vDict (.cons "uct" (vBool true) .nil)]

/-- `normalize_chunk c8recs`, written out. -/
def c8df : DF := DF.mk ["uct"] [[("uct", vStr "true")]]

/-- The normalization pipeline up to (but excluding) the final
partition-column derivation — `normalize_chunk` is `setColDate` composed
onto this. -/
def normalizePre (records : List Value) : Option DF :=
  match stepInts (stepFloats (stepAutoStringify (stepObjecty (reindexKeep
      (json_normalize records))))) with
  | none => none
  | some df5 => some (stepDates (stepSanitize (stepAlwaysStr df5)))

/-- One pipeline stage relates two DataFrames by leaving the column list
and every row's key sequence unchanged (only cell values may change). -/
def keysPreserved (df df' : DF) : Prop :=
  df'.columns = df.columns ∧
  ∀ r' ∈ df'.rows, ∃ r ∈ df.rows, r'.map Prod.fst = r.map Prod.fst

/-! ## Chunker properties -/

/-- Concatenating the yielded batches restores the buffered-prefix plus
the remaining input, for any chunk size. -/
theorem to_chunksAux_flatten {α : Type} (n : Nat) (l : List α) :
    ∀ buf, (to_chunksAux n l buf).flatten = buf ++ l := by
  induction l with
  | nil =>
    intro buf
    cases buf <;> simp [to_chunksAux]
  | cons x xs ih =>
    intro buf
    simp only [to_chunksAux]
    split
    · simp [ih]
    · simp [ih]

/-- With a positive chunk size and a buffer below capacity, every yielded
batch is nonempty and no larger than the chunk size. -/
theorem to_chunksAux_batch_sizes {α : Type} (n : Nat) (hn : 0 < n) (l : List α) :
    ∀ buf, buf.length < n → ∀ c ∈ to_chunksAux n l buf, 0 < c.length ∧ c.length ≤ n := by
  induction l with
  | nil =>
    intro buf hb c hc
    by_cases h : buf.isEmpty
    · simp [to_chunksAux, h] at hc
    · simp only [to_chunksAux, h, Bool.false_eq_true, if_false, List.mem_singleton] at hc
      rw [hc]
      have hne : buf ≠ [] := fun he => by simp [he] at h
      exact ⟨List.length_pos.mpr hne, Nat.le_of_lt hb⟩
  | cons x xs ih =>
    intro buf hb c hc
    simp only [to_chunksAux] at hc
    by_cases hle : n ≤ (buf ++ [x]).length
    · rw [if_pos hle] at hc
      rcases List.mem_cons.mp hc with rfl | hc2
      · refine ⟨by simp, ?_⟩
        simp only [List.length_append, List.length_singleton]
        omega
      · exact ih [] (by simpa using hn) c hc2
    · rw [if_neg hle] at hc
      exact ih (buf ++ [x]) (Nat.lt_of_not_le hle) c hc

/-- With a positive chunk size and a buffer below capacity, every yielded
batch except possibly the last has exactly the chunk size. -/
theorem to_chunksAux_dropLast_sizes {α : Type} (n : Nat) (hn : 0 < n) (l : List α) :
    ∀ buf, buf.length < n → ∀ c ∈ (to_chunksAux n l buf).dropLast, c.length = n := by
  induction l with
  | nil =>
    intro buf hb c hc
    by_cases h : buf.isEmpty <;> simp [to_chunksAux, h] at hc
  | cons x xs ih =>
    intro buf hb c hc
    simp only [to_chunksAux] at hc
    by_cases hle : n ≤ (buf ++ [x]).length
    · rw [if_pos hle] at hc
      cases hrest : to_chunksAux n xs [] with
      | nil => rw [hrest] at hc; simp at hc
      | cons r rs =>
        rw [hrest, List.dropLast_cons₂, List.mem_cons] at hc
        rcases hc with rfl | hc2
        · simp only [List.length_append, List.length_singleton] at hle ⊢
          omega
        · rw [← hrest] at hc2
          exact ih [] (by simpa using hn) c hc2
    · rw [if_neg hle] at hc
      exact ih (buf ++ [x]) (Nat.lt_of_not_le hle) c hc

/-- C7: for every finite input record sequence and every positive chunk
size, `to_chunks` performs pure grouping: every yielded batch except
possibly the last has exactly `chunk_size` records, every batch has at
most `chunk_size` records, and the batches concatenate, in order, back to
the input sequence (no record transformed, dropped, duplicated or
reordered). -/
theorem to_chunks_pure_grouping {α : Type} (l : List α) (n : Nat) (hn : 0 < n) :
    (to_chunks l n).flatten = l ∧
    (∀ c ∈ (to_chunks l n).dropLast, c.length = n) ∧
    (∀ c ∈ to_chunks l n, c.length ≤ n) :=
  ⟨to_chunksAux_flatten n l [],
   fun c hc => to_chunksAux_dropLast_sizes n hn l [] (by simpa using hn) c hc,
   fun c hc => (to_chunksAux_batch_sizes n hn l [] (by simpa using hn) c hc).2⟩

/-- Witness for C7 at the concrete input `[1, 2, 3]` with chunk size 2. -/
theorem to_chunks_pure_grouping_witness :
    (to_chunks [1, 2, 3] 2).flatten = [1, 2, 3] ∧
    (∀ c ∈ (to_chunks [1, 2, 3] 2).dropLast, c.length = 2) ∧
    (∀ c ∈ to_chunks [1, 2, 3] 2, c.length ≤ 2) :=
  to_chunks_pure_grouping [1, 2, 3] 2 (by decide)

/-- C10: the chunker never yields an empty batch, and an empty input
yields no batches at all. -/
theorem to_chunks_no_empty_batches {α : Type} (l : List α) (n : Nat) (hn : 0 < n) :
    (∀ c ∈ to_chunks l n, c ≠ []) ∧ to_chunks ([] : List α) n = [] :=
  ⟨fun c hc =>
    List.length_pos.mp (to_chunksAux_batch_sizes n hn l [] (by simpa using hn) c hc).1,
   by simp [to_chunks, to_chunksAux]⟩

/-- Witness for C10 at the concrete input `[1, 2, 3]` with chunk size 2. -/
theorem to_chunks_no_empty_batches_witness :
    (∀ c ∈ to_chunks [1, 2, 3] 2, c ≠ []) ∧ to_chunks ([] : List Nat) 2 = [] :=
  to_chunks_no_empty_batches [1, 2, 3] 2 (by decide)

/-! ## Nullable-integer coercion can raise (C1) -/

/-- C1: the claim (and the spec's stated design, "coercion never raises;
all coercion failures degrade to null") is the evident intent —
`errors="coerce"` is used on every coercion — but the code slips on
always-nullable-integer columns: evaluating `normalize_chunk` on a batch
whose `satNo` holds the string `"3.7"` raises, because `pd.to_numeric`
parses it to the non-integral float 3.7 and the subsequent
`.astype("Int64")` raises `TypeError: cannot safely cast non-equivalent
float64 to int64` instead of degrading the cell to null. -/
theorem normalize_chunk_raises_on_non_integral_int :
    normalize_chunk [vDict (.cons "satNo" (vStr "3.7") .nil)] = none := by decide

/-! ## Deduplicator properties -/

/-- Membership in an insertion step. -/
theorem mem_insertSorted {le : Row → Row → Bool} {r x : Row} {l : List Row} :
    x ∈ insertSorted le r l ↔ x = r ∨ x ∈ l := by
  induction l with
  | nil => simp [insertSorted]
  | cons y ys ih =>
    simp only [insertSorted]
    split
    · simp [List.mem_cons]
    · simp only [List.mem_cons, ih]
      tauto

/-- Insertion grows the length by one. -/
theorem length_insertSorted {le : Row → Row → Bool} (r : Row) (l : List Row) :
    (insertSorted le r l).length = l.length + 1 := by
  induction l with
  | nil => simp [insertSorted]
  | cons y ys ih =>
    simp only [insertSorted]
    split
    · simp
    · simp [ih]

/-- Sorting neither adds nor removes rows. -/
theorem mem_sortRows {le : Row → Row → Bool} {x : Row} {l : List Row} :
    x ∈ sortRows le l ↔ x ∈ l := by
  induction l with
  | nil => simp [sortRows]
  | cons y ys ih => simp [sortRows, mem_insertSorted, ih]

/-- Sorting preserves the number of rows. -/
theorem length_sortRows {le : Row → Row → Bool} (l : List Row) :
    (sortRows le l).length = l.length := by
  induction l with
  | nil => rfl
  | cons y ys ih => simp [sortRows, length_insertSorted, ih]

/-- Dropping duplicates only retains rows of the input. -/
theorem mem_of_mem_dropDupLast {key : Row → List Value} {x : Row} {l : List Row} :
    x ∈ dropDupLast key l → x ∈ l := by
  induction l with
  | nil => simp [dropDupLast]
  | cons y ys ih =>
    simp only [dropDupLast]
    split
    · intro h; exact List.mem_cons_of_mem y (ih h)
    · intro h
      rcases List.mem_cons.mp h with rfl | h2
      · exact List.mem_cons_self x ys
      · exact List.mem_cons_of_mem y (ih h2)

/-- Dropping duplicates never grows the list. -/
theorem length_dropDupLast_le (key : Row → List Value) (l : List Row) :
    (dropDupLast key l).length ≤ l.length := by
  induction l with
  | nil => simp [dropDupLast]
  | cons y ys ih =>
    simp only [dropDupLast]
    split
    · exact Nat.le_succ_of_le ih
    · simpa using ih

/-- After dropping duplicates, all key tuples are pairwise distinct. -/
theorem pairwise_dropDupLast (key : Row → List Value) (l : List Row) :
    List.Pairwise (fun a b => key a ≠ key b) (dropDupLast key l) := by
  induction l with
  | nil => exact List.Pairwise.nil
  | cons y ys ih =>
    simp only [dropDupLast]
    split
    · exact ih
    · refine List.Pairwise.cons ?_ ih
      intro b hb hkey
      rename_i hany
      have hb2 := mem_of_mem_dropDupLast hb
      have : ys.any (fun r2 => decide (key r2 = key y)) = true :=
        List.any_eq_true.mpr ⟨b, hb2, by simp [hkey]⟩
      simp [this] at hany

/-- Every key tuple of the input survives in the deduplicated output. -/
theorem key_mem_dropDupLast (key : Row → List Value) (l : List Row) :
    ∀ r ∈ l, ∃ r2 ∈ dropDupLast key l, key r2 = key r := by
  induction l with
  | nil => simp
  | cons y ys ih =>
    intro r hr
    simp only [dropDupLast]
    rcases List.mem_cons.mp hr with rfl | hr2
    · split
      · rename_i hany
        obtain ⟨r3, hr3, hkey3⟩ := List.any_eq_true.mp hany
        obtain ⟨r2, hr2d, hkey2⟩ := ih r3 hr3
        exact ⟨r2, hr2d, by rw [hkey2]; exact of_decide_eq_true hkey3⟩
      · exact ⟨r, List.mem_cons_self r _, rfl⟩
    · split
      · exact ih r hr2
      · obtain ⟨r2, hr2d, hkey2⟩ := ih r hr2
        exact ⟨r2, List.mem_cons_of_mem y hr2d, hkey2⟩

/-- With no key columns present, `dedupe_keys` passes the batch through. -/
theorem dedupe_keys_eq_id (df : DF) (h : (dedupKeyCols df).isEmpty = true) :
    dedupe_keys df = df := by
  simp [dedupe_keys, h]

/-- With key columns present, `dedupe_keys` sorts by the composite key and
drops all but the last row of each key group. -/
theorem dedupe_keys_eq (df : DF) (h : (dedupKeyCols df).isEmpty = false) :
    dedupe_keys df =
      { df with
        rows := dropDupLast (keyOf (dedupKeyCols df))
          (sortRows (fun a b => keyLe (keyOf (dedupKeyCols df) a) (keyOf (dedupKeyCols df) b))
            df.rows) } := by
  simp [dedupe_keys, h]

/-- C9: deduplication only removes rows — every output row is literally a
row of the input batch (no cell altered, no row created), the output row
count is at most the input's, and the columns are untouched. -/
theorem dedupe_keys_only_removes (df : DF) :
    (∀ r ∈ (dedupe_keys df).rows, r ∈ df.rows) ∧
    (dedupe_keys df).rows.length ≤ df.rows.length ∧
    (dedupe_keys df).columns = df.columns := by
  by_cases h : (dedupKeyCols df).isEmpty
  · rw [dedupe_keys_eq_id df h]
    exact ⟨fun r hr => hr, Nat.le_refl _, rfl⟩
  · rw [dedupe_keys_eq df (Bool.not_eq_true _ ▸ h)]
    refine ⟨fun r hr => mem_sortRows.mp (mem_of_mem_dropDupLast hr), ?_, rfl⟩
    calc (dropDupLast (keyOf (dedupKeyCols df))
            (sortRows (fun a b => keyLe (keyOf (dedupKeyCols df) a) (keyOf (dedupKeyCols df) b))
              df.rows)).length
        ≤ (sortRows (fun a b => keyLe (keyOf (dedupKeyCols df) a) (keyOf (dedupKeyCols df) b))
            df.rows).length := length_dropDupLast_le _ _
      _ = df.rows.length := length_sortRows _

/-- C2: REFUTED AS STATED — `dedupe_keys` keys on ALL of
`satNo`, `epoch`, `idElset` that are present (a composite key), not on the
first present one: on a batch with `satNo` and `epoch` columns whose two
rows share `satNo = 1` but differ in `epoch`, both rows survive, so two
output rows share the value of the first-present key column. -/
theorem dedupe_keys_counterexample_c2 :
    dedupKeyCols c2df = ["satNo", "epoch"] ∧
    dedupe_keys c2df = c2df ∧
    (dedupe_keys c2df).rows.map (fun r => getCell r "satNo") = [vInt 1, vInt 1] := by decide

/-- C2 (amended): deduplication keys on ALL of `satNo`, `epoch`, `idElset`
that are present, in that priority order, as one composite key: with at
least one key column present it sorts by that composite key and keeps, for
each distinct composite key value, exactly the row that sorted last, so no
two output rows share the same composite key tuple, every output row is an
input row, and every input key tuple is still represented; with none
present the batch passes through unchanged. -/
theorem dedupe_keys_composite (df : DF) :
    (dedupKeyCols df = [] → dedupe_keys df = df) ∧
    (dedupKeyCols df ≠ [] →
      List.Pairwise (fun a b => keyOf (dedupKeyCols df) a ≠ keyOf (dedupKeyCols df) b)
        (dedupe_keys df).rows ∧
      (∀ r ∈ (dedupe_keys df).rows, r ∈ df.rows) ∧
      (∀ r ∈ df.rows, ∃ r2 ∈ (dedupe_keys df).rows,
        keyOf (dedupKeyCols df) r2 = keyOf (dedupKeyCols df) r)) := by
  constructor
  · intro h
    exact dedupe_keys_eq_id df (by simp [h])
  · intro h
    have hb : (dedupKeyCols df).isEmpty = false := by
      cases hk : dedupKeyCols df with
      | nil => exact absurd hk h
      | cons a as => simp
    rw [dedupe_keys_eq df hb]
    refine ⟨pairwise_dropDupLast _ _,
      fun r hr => mem_sortRows.mp (mem_of_mem_dropDupLast hr), ?_⟩
    intro r hr
    exact key_mem_dropDupLast _ _ r (mem_sortRows.mpr hr)

/-- Witness for C2 (amended): the no-key batch passes through, and the
two-key-column batch `c2df` comes out with pairwise distinct composite
keys. -/
theorem dedupe_keys_composite_witness :
    dedupe_keys c2dfNoKeys = c2dfNoKeys ∧
    List.Pairwise (fun a b => keyOf (dedupKeyCols c2df) a ≠ keyOf (dedupKeyCols c2df) b)
      (dedupe_keys c2df).rows :=
  ⟨(dedupe_keys_composite c2dfNoKeys).1 (by decide),
   ((dedupe_keys_composite c2df).2 (by decide)).1⟩

/-! ## Record source properties -/

/-- C4: REFUTED AS STATED — the newline-delimited record source does NOT
skip lines beginning with a comment marker: on an input of two valid JSON
object lines interleaved with one blank line and one `#`-comment line, the
comment line reaches `json.loads`, which fails, so the file aborts instead
of yielding exactly two records. -/
theorem iter_records_comment_counterexample :
    iter_records_ndjson ["\x7b\"a\": 1\x7d", "", "# comment", "\x7b\"b\": 2\x7d"] = none ∧
    json_loads "# comment" = none := by decide

/-- C4 (amended): the record source skips exactly the lines that are blank
after stripping whitespace; every other line — comment lines included — is
passed to the JSON parser, whose failure is fatal for the file.  Two valid
JSON object lines interleaved with a blank line and a whitespace-only line
yield exactly two records. -/
theorem iter_records_skips_only_blanks :
    (∀ ls : List String,
      iter_records_ndjson ls
        = mapOpt json_loads ((ls.map pyStrip).filter (fun t => t ≠ ""))) ∧
    iter_records_ndjson ["\x7b\"a\": 1\x7d", "", "   ", "\x7b\"b\": 2\x7d"]
      = some [vDict (.cons "a" (vInt 1) .nil), vDict (.cons "b" (vInt 2) .nil)] := by
  constructor
  · intro ls
    induction ls with
    | nil => rfl
    | cons l ls ih =>
      by_cases h : pyStrip l = ""
      · have hL : iter_records_ndjson (l :: ls) = iter_records_ndjson ls := by
          simp [iter_records_ndjson, h]
        rw [hL, ih]
        congr 1
        simp [List.filter_cons, h]
      · rcases hjl : json_loads (pyStrip l) with _ | v
        · have hL : iter_records_ndjson (l :: ls) = none := by
            simp [iter_records_ndjson, h, hjl]
          have hR : mapOpt json_loads
              (((l :: ls).map pyStrip).filter (fun t => t ≠ "")) = none := by
            simp [List.filter_cons, h, mapOpt, hjl]
          rw [hL, hR]
        · have hL : iter_records_ndjson (l :: ls)
              = (iter_records_ndjson ls).map (v :: ·) := by
            simp [iter_records_ndjson, h, hjl]
          have hR : mapOpt json_loads (((l :: ls).map pyStrip).filter (fun t => t ≠ ""))
              = (mapOpt json_loads ((ls.map pyStrip).filter (fun t => t ≠ ""))).map
                  (v :: ·) := by
            simp [List.filter_cons, h, mapOpt, hjl]
          rw [hL, hR, ih]
  · decide

/-- C5: REFUTED AS STATED — `detect_format` reads only the FIRST byte of
the file, not the first non-whitespace byte: a file starting with a space
followed by `[` is classified `"ndjson"` even though its first
non-whitespace byte is `[` (the spec-modelled detector says `"array"`). -/
theorem detect_format_counterexample :
    detect_format " [" = "ndjson" ∧ detect_format_spec " [" = "array" := by decide

/-- C5 (amended): format detection inspects the file's FIRST byte and
classifies the file as array-of-objects exactly when that byte is `[`; a
file whose `[` is preceded by whitespace is classified as
newline-delimited. -/
theorem detect_format_first_byte (content : String) :
    detect_format content = "array" ↔ content.data.head? = some '[' := by
  unfold detect_format
  by_cases h : content.data.head? = some '[' <;> simp [h]

/-- C6: REFUTED — an empty input file raises no `FormatDetectionError`
(no such error exists in the code): it is classified `"ndjson"` and
silently yields zero records, succeeding. -/
theorem empty_file_counterexample :
    detect_format "" = "ndjson" ∧ iter_records_ndjson (fileLines "") = some [] := by decide

/-- C6 (amended): an empty input file is classified as newline-delimited
and silently produces zero records with no raised failure; the chunker
then yields no batches, so the file contributes no output at all. -/
theorem empty_file_silently_succeeds :
    detect_format "" = "ndjson" ∧
    iter_records_ndjson (fileLines "") = some [] ∧
    to_chunks ([] : List Value) 50000 = [] := by
  refine ⟨by decide, by decide, by simp [to_chunks, to_chunksAux]⟩
/-! ## Row and cell lemmas -/

/-- Cell access on a cons row. -/
theorem getCell_cons (k : String) (v : Value) (r : Row) (c : String) :
    getCell ((k, v) :: r) c = if c = k then v else getCell r c := by
  by_cases h : c = k
  · have hb : (c == k) = true := by simp [h]
    simp [getCell, List.lookup, hb, h]
  · have hb : (c == k) = false := by simp [h]
    simp [getCell, List.lookup, hb, h]

/-- `rowMap` on a cons row whose head is the target column. -/
theorem rowMap_cons_self {k c : String} (h : k = c) (f : Value → Value) (v : Value) (r : Row) :
    rowMap c f ((k, v) :: r) = (k, f v) :: rowMap c f r := by
  simp [rowMap, h]

/-- `rowMap` on a cons row whose head is another column. -/
theorem rowMap_cons_ne {k c : String} (h : ¬ k = c) (f : Value → Value) (v : Value) (r : Row) :
    rowMap c f ((k, v) :: r) = (k, v) :: rowMap c f r := by
  simp [rowMap, h]

/-- `rowMap` acts on the cell of its own column (for null-fixing `f`). -/
theorem getCell_rowMap_self {c : String} {f : Value → Value} (hf : f vNull = vNull) (r : Row) :
    getCell (rowMap c f r) c = f (getCell r c) := by
  induction r with
  | nil => simp [rowMap, getCell, List.lookup, hf]
  | cons kv r ih =>
    obtain ⟨k, v⟩ := kv
    by_cases h : k = c
    · rw [rowMap_cons_self h, getCell_cons, getCell_cons, if_pos h.symm, if_pos h.symm]
    · rw [rowMap_cons_ne h, getCell_cons, getCell_cons,
        if_neg (fun hc => h hc.symm), if_neg (fun hc => h hc.symm)]
      exact ih

/-- `rowMap` leaves other columns' cells alone. -/
theorem getCell_rowMap_ne {c c' : String} (h : c' ≠ c) (f : Value → Value) (r : Row) :
    getCell (rowMap c f r) c' = getCell r c' := by
  induction r with
  | nil => rfl
  | cons kv r ih =>
    obtain ⟨k, v⟩ := kv
    by_cases hk : k = c
    · rw [rowMap_cons_self hk, getCell_cons, getCell_cons,
        if_neg (hk ▸ h : c' ≠ k), if_neg (hk ▸ h : c' ≠ k)]
      exact ih
    · rw [rowMap_cons_ne hk, getCell_cons, getCell_cons]
      by_cases hck : c' = k
      · simp [hck]
      · rw [if_neg hck, if_neg hck]
        exact ih

/-- `rowMap` keeps every key in place. -/
theorem keys_rowMap (c : String) (f : Value → Value) (r : Row) :
    (rowMap c f r).map Prod.fst = r.map Prod.fst := by
  induction r with
  | nil => rfl
  | cons kv r ih =>
    obtain ⟨k, v⟩ := kv
    by_cases h : k = c
    · rw [rowMap_cons_self h]
      simpa using ih
    · rw [rowMap_cons_ne h]
      simpa using ih

/-- `setCell` on a cons row whose head is the target column. -/
theorem setCell_cons_drop {k c : String} (h : k = c) (r : Row) (v w : Value) :
    setCell ((k, w) :: r) c v = setCell r c v := by
  simp [setCell, List.filter_cons, h]

/-- `setCell` on a cons row whose head is another column. -/
theorem setCell_cons_keep {k c : String} (h : ¬ k = c) (r : Row) (v w : Value) :
    setCell ((k, w) :: r) c v = (k, w) :: setCell r c v := by
  simp [setCell, List.filter_cons, h]

/-- `setCell` sets its own cell. -/
theorem getCell_setCell_self (r : Row) (c : String) (v : Value) :
    getCell (setCell r c v) c = v := by
  induction r with
  | nil => simp [setCell, getCell_cons]
  | cons kv r ih =>
    obtain ⟨k, w⟩ := kv
    by_cases h : k = c
    · rw [setCell_cons_drop h]
      exact ih
    · rw [setCell_cons_keep h, getCell_cons, if_neg (fun hc => h hc.symm)]
      exact ih

/-- `setCell` leaves other columns' cells alone. -/
theorem getCell_setCell_ne {c c' : String} (h : c' ≠ c) (r : Row) (v : Value) :
    getCell (setCell r c v) c' = getCell r c' := by
  induction r with
  | nil =>
    have hb : (c' == c) = false := by simp [h]
    simp [setCell, getCell, List.lookup, hb]
  | cons kv r ih =>
    obtain ⟨k, w⟩ := kv
    by_cases hk : k = c
    · rw [setCell_cons_drop hk, getCell_cons, if_neg (hk ▸ h : c' ≠ k)]
      exact ih
    · rw [setCell_cons_keep hk, getCell_cons, getCell_cons]
      by_cases hck : c' = k
      · simp [hck]
      · rw [if_neg hck, if_neg hck]
        exact ih

/-- A successful lookup names an entry of the row. -/
theorem mem_of_lookup_eq_some {r : Row} {c : String} {v : Value}
    (h : r.lookup c = some v) : (c, v) ∈ r := by
  induction r with
  | nil => simp [List.lookup] at h
  | cons kv r ih =>
    obtain ⟨k, w⟩ := kv
    by_cases hk : c = k
    · have hb : (c == k) = true := by simp [hk]
      simp only [List.lookup, hb, Option.some.injEq] at h
      rw [hk, ← h]
      exact List.mem_cons_self _ _
    · have hb : (c == k) = false := by simp [hk]
      simp only [List.lookup, hb] at h
      exact List.mem_cons_of_mem _ (ih h)

/-- A non-null cell comes from an actual entry. -/
theorem lookup_of_getCell_ne {r : Row} {c : String} (h : getCell r c ≠ vNull) :
    r.lookup c = some (getCell r c) := by
  unfold getCell at *
  cases hl : r.lookup c with
  | none => simp [hl] at h
  | some v => simp [hl]

/-- Inversion for a successful `mapOpt` on a cons. -/
theorem mapOpt_cons_some {α β : Type} {f : α → Option β} {a : α} {as : List α} {l' : List β}
    (h : mapOpt f (a :: as) = some l') :
    ∃ b bs, f a = some b ∧ mapOpt f as = some bs ∧ l' = b :: bs := by
  simp only [mapOpt] at h
  cases hf : f a with
  | none => rw [hf] at h; simp at h
  | some b =>
    rw [hf] at h
    cases hm : mapOpt f as with
    | none => rw [hm] at h; simp at h
    | some bs =>
      rw [hm] at h
      refine ⟨b, bs, rfl, rfl, ?_⟩
      simpa using h.symm

/-- A successful `mapOpt` preserves the length. -/
theorem mapOpt_length {α β : Type} {f : α → Option β} :
    ∀ {l : List α} {l' : List β}, mapOpt f l = some l' → l'.length = l.length := by
  intro l
  induction l with
  | nil =>
    intro l' h
    simp only [mapOpt, Option.some.injEq] at h
    simp [← h]
  | cons a as ih =>
    intro l' h
    obtain ⟨b, bs, _, hm, rfl⟩ := mapOpt_cons_some h
    simp [ih hm]

/-- Every element of a successful `mapOpt` image comes from an element of
the input. -/
theorem mapOpt_mem {α β : Type} {f : α → Option β} :
    ∀ {l : List α} {l' : List β}, mapOpt f l = some l' →
      ∀ b ∈ l', ∃ a ∈ l, f a = some b := by
  intro l
  induction l with
  | nil =>
    intro l' h b hb
    simp only [mapOpt, Option.some.injEq] at h
    rw [← h] at hb
    simp at hb
  | cons a as ih =>
    intro l' h b hb
    obtain ⟨b0, bs, hf, hm, rfl⟩ := mapOpt_cons_some h
    rcases List.mem_cons.mp hb with rfl | hb2
    · exact ⟨a, List.mem_cons_self _ _, hf⟩
    · obtain ⟨a2, ha2, hfa2⟩ := ih hm b hb2
      exact ⟨a2, List.mem_cons_of_mem _ ha2, hfa2⟩

/-- A successful `mapOpt` acts positionally, with agreeing defaults. -/
theorem mapOpt_getD {α β : Type} {f : α → Option β} {da : α} {db : β}
    (hd : f da = some db) :
    ∀ {l : List α} {l' : List β}, mapOpt f l = some l' →
      ∀ i, f (l.getD i da) = some (l'.getD i db) := by
  intro l
  induction l with
  | nil =>
    intro l' h i
    simp only [mapOpt, Option.some.injEq] at h
    simp [← h, hd]
  | cons a as ih =>
    intro l' h i
    obtain ⟨b, bs, hf, hm, rfl⟩ := mapOpt_cons_some h
    cases i with
    | zero => simpa using hf
    | succ j => simpa using ih hm j

/-- `rowMapE` on the empty row. -/
theorem rowMapE_nil (c : String) (f : Value → Option Value) :
    rowMapE c f [] = some [] := rfl

/-- The per-entry action of `rowMapE` keeps the entry's key. -/
theorem rowMapE_entry_key {c : String} {f : Value → Option Value}
    {kv kv' : String × Value}
    (h : (if kv.1 = c then (f kv.2).map (fun v => (kv.1, v)) else some kv) = some kv') :
    kv'.1 = kv.1 := by
  by_cases hk : kv.1 = c
  · rw [if_pos hk] at h
    cases hf : f kv.2 with
    | none => rw [hf] at h; simp at h
    | some w => rw [hf] at h; simp at h; simp [← h]
  · rw [if_neg hk] at h
    simp only [Option.some.injEq] at h
    rw [← h]

/-- The per-entry action of `rowMapE` changes no value outside column `c`. -/
theorem rowMapE_entry_ne {c : String} {f : Value → Option Value}
    {kv kv' : String × Value} (hk : kv.1 ≠ c)
    (h : (if kv.1 = c then (f kv.2).map (fun v => (kv.1, v)) else some kv) = some kv') :
    kv' = kv := by
  rw [if_neg hk] at h
  simpa using h.symm

/-- A successful `rowMapE` keeps every key in place. -/
theorem keys_rowMapE {c : String} {f : Value → Option Value} :
    ∀ {r r' : Row}, rowMapE c f r = some r' → r'.map Prod.fst = r.map Prod.fst := by
  intro r
  induction r with
  | nil =>
    intro r' h
    rw [rowMapE_nil] at h
    simp only [Option.some.injEq] at h
    simp [← h]
  | cons kv r ih =>
    intro r' h
    obtain ⟨kv', r2, hf, hm, rfl⟩ := mapOpt_cons_some h
    simp only [List.map_cons]
    rw [rowMapE_entry_key hf, ih hm]

/-- A successful `rowMapE` leaves other columns' cells alone. -/
theorem getCell_rowMapE_ne {c c' : String} (hcc : c' ≠ c) {f : Value → Option Value} :
    ∀ {r r' : Row}, rowMapE c f r = some r' → getCell r' c' = getCell r c' := by
  intro r
  induction r with
  | nil =>
    intro r' h
    rw [rowMapE_nil] at h
    simp only [Option.some.injEq] at h
    rw [← h]
  | cons kv r ih =>
    intro r' h
    obtain ⟨kv', r2, hf, hm, rfl⟩ := mapOpt_cons_some h
    obtain ⟨k, v⟩ := kv
    have hkey : kv'.1 = k := rowMapE_entry_key hf
    by_cases hck : c' = k
    · have hkv : kv' = (k, v) :=
        @rowMapE_entry_ne c f (k, v) kv' (fun hkc => hcc (hck.trans hkc)) hf
      rw [hkv, getCell_cons, getCell_cons, if_pos hck, if_pos hck]
    · obtain ⟨k2, v2⟩ := kv'
      simp only at hkey
      rw [getCell_cons, getCell_cons, hkey, if_neg hck, if_neg hck]
      exact ih hm

/-- Mapping a cell-level action over all rows acts positionally on every
cell of the column, out-of-range rows included (for null-fixing actions). -/
theorem getCell_getD_map (g : Row → Row) (c : String) (tf : Value → Value)
    (hg : ∀ r, getCell (g r) c = tf (getCell r c)) (h0 : tf vNull = vNull)
    (rows : List Row) (i : Nat) :
    getCell ((rows.map g).getD i []) c = tf (getCell (rows.getD i []) c) := by
  induction rows generalizing i with
  | nil => simp [List.getD_nil, getCell, List.lookup, h0]
  | cons r rs ih =>
    cases i with
    | zero => simpa using hg r
    | succ j => simpa using ih j

/-! ## Pipeline structure lemmas -/

/-- `mapCol` never changes the column list. -/
theorem columns_mapCol (c : String) (f : Value → Value) (df : DF) :
    (mapCol c f df).columns = df.columns := by
  unfold mapCol
  split <;> rfl

/-- `keysPreserved` is reflexive. -/
theorem keysPreserved_refl (df : DF) : keysPreserved df df :=
  ⟨rfl, fun r hr => ⟨r, hr, rfl⟩⟩

/-- `keysPreserved` composes. -/
theorem keysPreserved_trans {df1 df2 df3 : DF}
    (h12 : keysPreserved df1 df2) (h23 : keysPreserved df2 df3) :
    keysPreserved df1 df3 := by
  obtain ⟨hc1, hr1⟩ := h12
  obtain ⟨hc2, hr2⟩ := h23
  refine ⟨hc2.trans hc1, fun r' hr' => ?_⟩
  obtain ⟨r2, hr2m, hk2⟩ := hr2 r' hr'
  obtain ⟨r1, hr1m, hk1⟩ := hr1 r2 hr2m
  exact ⟨r1, hr1m, hk2.trans hk1⟩

/-- One `mapCol` stage preserves columns and row keys. -/
theorem keysPreserved_mapCol (c : String) (f : Value → Value) (df : DF) :
    keysPreserved df (mapCol c f df) := by
  unfold mapCol
  split
  · refine ⟨rfl, fun r' hr' => ?_⟩
    simp only [List.mem_map] at hr'
    obtain ⟨r, hr, rfl⟩ := hr'
    exact ⟨r, hr, keys_rowMap c f r⟩
  · exact keysPreserved_refl df

/-- A successful `mapColE` stage preserves columns and row keys. -/
theorem keysPreserved_mapColE {c : String} {f : Value → Option Value} {df df' : DF}
    (h : mapColE c f df = some df') : keysPreserved df df' := by
  unfold mapColE at h
  split at h
  · cases hm : mapOpt (rowMapE c f) df.rows with
    | none => rw [hm] at h; simp at h
    | some rs =>
      rw [hm] at h
      simp only [Option.map_some', Option.some.injEq] at h
      rw [← h]
      refine ⟨rfl, fun r' hr' => ?_⟩
      obtain ⟨r, hr, hfr⟩ := mapOpt_mem hm r' hr'
      exact ⟨r, hr, keys_rowMapE hfr⟩
  · simp only [Option.some.injEq] at h
    rw [← h]
    exact keysPreserved_refl df

/-- A fold of key-preserving stages preserves keys. -/
theorem keysPreserved_foldl {β : Type} (g : DF → β → DF)
    (h : ∀ acc b, keysPreserved acc (g acc b)) :
    ∀ (l : List β) (df : DF), keysPreserved df (l.foldl g df) := by
  intro l
  induction l with
  | nil => intro df; exact keysPreserved_refl df
  | cons b bs ih =>
    intro df
    exact keysPreserved_trans (h df b) (ih (g df b))

/-- `stepObjecty` preserves columns and row keys. -/
theorem keysPreserved_stepObjecty (df : DF) : keysPreserved df (stepObjecty df) :=
  keysPreserved_foldl _ (fun acc b => keysPreserved_mapCol b stringifyObjCell acc) _ df

/-- `stepAutoStringify` preserves columns and row keys. -/
theorem keysPreserved_stepAutoStringify (df : DF) :
    keysPreserved df (stepAutoStringify df) := by
  refine keysPreserved_foldl _ (fun acc b => ?_) _ df
  dsimp only
  split
  · split
    · exact keysPreserved_mapCol b stringifyObjCell acc
    · exact keysPreserved_refl acc
  · exact keysPreserved_refl acc

/-- `stepFloats` preserves columns and row keys. -/
theorem keysPreserved_stepFloats (df : DF) : keysPreserved df (stepFloats df) :=
  keysPreserved_foldl _ (fun acc b => keysPreserved_mapCol b pd_to_numeric_val acc) _ df

/-- `stepAlwaysStr` preserves columns and row keys. -/
theorem keysPreserved_stepAlwaysStr (df : DF) : keysPreserved df (stepAlwaysStr df) :=
  keysPreserved_foldl _ (fun acc b => keysPreserved_mapCol b _to_text acc) _ df

/-- `stepSanitize` preserves columns and row keys. -/
theorem keysPreserved_stepSanitize (df : DF) : keysPreserved df (stepSanitize df) := by
  refine keysPreserved_foldl _ (fun acc b => ?_) _ df
  dsimp only
  split
  · split
    · exact keysPreserved_mapCol b _to_text acc
    · exact keysPreserved_refl acc
  · exact keysPreserved_refl acc

/-- `stepDates` preserves columns and row keys. -/
theorem keysPreserved_stepDates (df : DF) : keysPreserved df (stepDates df) :=
  keysPreserved_foldl _ (fun acc b => keysPreserved_mapCol b pd_to_datetime_val acc) _ df

/-- A successful `foldColsE` preserves columns and row keys. -/
theorem keysPreserved_foldColsE {f : Value → Option Value} :
    ∀ (cols : List String) {df df' : DF}, foldColsE cols f df = some df' →
      keysPreserved df df' := by
  intro cols
  induction cols with
  | nil =>
    intro df df' h
    simp only [foldColsE, Option.some.injEq] at h
    rw [← h]
    exact keysPreserved_refl df
  | cons c cs ih =>
    intro df df' h
    simp only [foldColsE] at h
    cases hm : mapColE c f df with
    | none => rw [hm] at h; simp at h
    | some df2 =>
      rw [hm] at h
      exact keysPreserved_trans (keysPreserved_mapColE hm) (ih h)

/-- The configured keep-list is `None`, so the trim stage is the
identity. -/
theorem reindexKeep_eq (df : DF) : reindexKeep df = df := rfl

/-- `normalize_chunk` is `setColDate` composed onto `normalizePre`. -/
theorem normalize_chunk_eq (records : List Value) :
    normalize_chunk records = (normalizePre records).map setColDate := by
  unfold normalize_chunk normalizePre
  cases hstep : stepInts (stepFloats (stepAutoStringify (stepObjecty (reindexKeep
      (json_normalize records))))) <;> simp [hstep]

/-- The whole pre-partition pipeline preserves columns and row keys. -/
theorem normalizePre_keysPreserved {records : List Value} {df8 : DF}
    (h : normalizePre records = some df8) :
    keysPreserved (json_normalize records) df8 := by
  unfold normalizePre at h
  cases hstep : stepInts (stepFloats (stepAutoStringify (stepObjecty (reindexKeep
      (json_normalize records))))) with
  | none => rw [hstep] at h; simp at h
  | some df5 =>
    rw [hstep] at h
    simp only [Option.some.injEq] at h
    rw [← h]
    rw [reindexKeep_eq] at hstep
    refine keysPreserved_trans (keysPreserved_stepObjecty _)
      (keysPreserved_trans (keysPreserved_stepAutoStringify _)
        (keysPreserved_trans (keysPreserved_stepFloats _)
          (keysPreserved_trans (keysPreserved_foldColsE NUMERIC_AS_INT hstep)
            (keysPreserved_trans (keysPreserved_stepAlwaysStr _)
              (keysPreserved_trans (keysPreserved_stepSanitize _)
                (keysPreserved_stepDates _))))))

/-- Accumulated keys persist through `addKeys`. -/
theorem mem_addKeys_of_mem {x : String} :
    ∀ (r : Row) (acc : List String), x ∈ acc → x ∈ addKeys acc r := by
  intro r
  induction r with
  | nil => intro acc h; exact h
  | cons kv r ih =>
    intro acc h
    show x ∈ addKeys (if acc.contains kv.1 then acc else acc ++ [kv.1]) r
    apply ih
    split
    · exact h
    · exact List.mem_append_left _ h

/-- Every key of the row ends up in `addKeys`. -/
theorem mem_addKeys_of_key {kv : String × Value} :
    ∀ (r : Row) (acc : List String), kv ∈ r → kv.1 ∈ addKeys acc r := by
  intro r
  induction r with
  | nil => intro acc h; simp at h
  | cons kv0 r ih =>
    intro acc h
    rcases List.mem_cons.mp h with rfl | h2
    · show kv.1 ∈ addKeys (if acc.contains kv.1 then acc else acc ++ [kv.1]) r
      apply mem_addKeys_of_mem
      split
      · rename_i hc
        exact List.elem_iff.mp hc
      · exact List.mem_append_right _ (List.mem_singleton.mpr rfl)
    · exact ih _ h2

/-- Accumulated keys persist through the row fold of `unionCols`. -/
theorem mem_foldl_addKeys_of_mem {x : String} :
    ∀ (rows : List Row) (acc : List String), x ∈ acc → x ∈ rows.foldl addKeys acc := by
  intro rows
  induction rows with
  | nil => intro acc h; exact h
  | cons r rs ih => intro acc h; exact ih _ (mem_addKeys_of_mem r acc h)

/-- Every key of every row is collected by `unionCols`. -/
theorem mem_unionCols {kv : String × Value} {r : Row} :
    ∀ {rows : List Row} (acc : List String), r ∈ rows → kv ∈ r →
      kv.1 ∈ rows.foldl addKeys acc := by
  intro rows
  induction rows with
  | nil => intro acc h; simp at h
  | cons r0 rs ih =>
    intro acc hr hkv
    rcases List.mem_cons.mp hr with rfl | hr2
    · exact mem_foldl_addKeys_of_mem rs _ (mem_addKeys_of_key r acc hkv)
    · exact ih _ hr2 hkv

/-- The flattened batch satisfies the columns-cover invariant. -/
theorem colsCover_json_normalize (records : List Value) :
    colsCover (json_normalize records) := by
  intro r hr kv hkv
  have : kv.1 ∈ unionCols (records.map flattenRecord) :=
    mem_unionCols [] hr hkv
  simpa [json_normalize, List.elem_iff] using this

/-- `keysPreserved` transports the columns-cover invariant. -/
theorem colsCover_of_keysPreserved {df df' : DF}
    (hk : keysPreserved df df') (hc : colsCover df) : colsCover df' := by
  obtain ⟨hcols, hrows⟩ := hk
  intro r' hr' kv hkv
  obtain ⟨r, hr, hkeys⟩ := hrows r' hr'
  have hmem : kv.1 ∈ r'.map Prod.fst := List.mem_map_of_mem _ hkv
  rw [hkeys] at hmem
  obtain ⟨kv2, hkv2, heq⟩ := List.mem_map.mp hmem
  rw [hcols, ← heq]
  exact hc r hr kv2 hkv2

/-! ## Partition-column lemmas -/

/-- Without an `epoch` column, the partition stage is the identity. -/
theorem setColDate_not {df : DF} (h : df.columns.contains "epoch" = false) :
    setColDate df = df := by
  have hm : "epoch" ∉ df.columns := fun hm => by simp [hm] at h
  simp [setColDate, hm]

/-- With an `epoch` column, every row gets `epoch_date` set to the day of
its `epoch` cell. -/
theorem setColDate_rows {df : DF} (h : df.columns.contains "epoch" = true) :
    (setColDate df).rows
      = df.rows.map (fun r => setCell r "epoch_date" (ts_date (getCell r "epoch"))) := by
  have hm : "epoch" ∈ df.columns := List.elem_iff.mp h
  simp [setColDate, hm]

/-- With an `epoch` column, the output column list contains `epoch_date`. -/
theorem setColDate_contains_epoch_date {df : DF} (h : df.columns.contains "epoch" = true) :
    (setColDate df).columns.contains "epoch_date" = true := by
  have hm : "epoch" ∈ df.columns := List.elem_iff.mp h
  by_cases h2 : "epoch_date" ∈ df.columns
  · simp [setColDate, hm, h2]
  · simp [setColDate, hm, h2]

/-- Labels already collected persist through the label fold. -/
theorem mem_distinctLabels_of_mem {x : Option Int} :
    ∀ (rows : List Row) (acc : List (Option Int)), x ∈ acc →
      x ∈ rows.foldl (fun acc r =>
        if acc.contains (partitionLabel r) then acc else acc ++ [partitionLabel r]) acc := by
  intro rows
  induction rows with
  | nil => intro acc h; exact h
  | cons r rs ih =>
    intro acc h
    rw [List.foldl_cons]
    apply ih
    dsimp only
    split
    · exact h
    · exact List.mem_append_left _ h

/-- Every row's partition label appears among the distinct labels. -/
theorem mem_distinctLabels {r : Row} :
    ∀ {rows : List Row} (acc : List (Option Int)), r ∈ rows →
      partitionLabel r ∈ rows.foldl (fun acc r =>
        if acc.contains (partitionLabel r) then acc else acc ++ [partitionLabel r]) acc := by
  intro rows
  induction rows with
  | nil => intro acc h; simp at h
  | cons r0 rs ih =>
    intro acc hr
    rw [List.foldl_cons]
    rcases List.mem_cons.mp hr with rfl | hr2
    · apply mem_distinctLabels_of_mem rs
      dsimp only
      split
      · rename_i hc
        exact List.elem_iff.mp hc
      · exact List.mem_append_right _ (List.mem_singleton.mpr rfl)
    · exact ih _ hr2

/-- A nonempty batch with a non-datetime `epoch_date` column is written as
one group of rows per distinct partition label. -/
theorem write_chunk_partitioned {df : DF} (h1 : df.rows ≠ [])
    (h2 : df.columns.contains "epoch_date" = true)
    (h3 : colIsDatetime (colCells df "epoch_date") = false) :
    write_chunk df = (distinctLabels df.rows).map
      (fun l => (l, df.rows.filter (fun r => partitionLabel r = l))) := by
  have hm : "epoch_date" ∈ df.columns := List.elem_iff.mp h2
  simp [write_chunk, h1, hm, h3]

/-- A nonempty batch without an `epoch_date` column is written whole,
unpartitioned. -/
theorem write_chunk_unpartitioned {df : DF} (h1 : df.rows ≠ [])
    (h2 : df.columns.contains "epoch_date" = false) :
    write_chunk df = [(none, df.rows)] := by
  have hm : "epoch_date" ∉ df.columns := fun hmm => by simp [hmm] at h2
  simp [write_chunk, h1, hm]

/-- After the partition stage, the `epoch_date` cells are exactly the
days of the `epoch` cells. -/
theorem colCells_setColDate {df : DF} (h : df.columns.contains "epoch" = true) :
    colCells (setColDate df) "epoch_date"
      = df.rows.map (fun r => ts_date (getCell r "epoch")) := by
  unfold colCells
  rw [setColDate_rows h, List.map_map]
  refine List.map_congr_left (fun r _ => ?_)
  exact getCell_setCell_self _ _ _

/-- A column of `.dt.date` results is never a datetime column. -/
theorem colIsDatetime_ts_date (rows : List Row) :
    colIsDatetime (rows.map (fun r => ts_date (getCell r "epoch"))) = false := by
  unfold colIsDatetime
  by_cases hB : (rows.map (fun r => ts_date (getCell r "epoch"))).any
      (fun v => !pd_isna v) = true
  · obtain ⟨v, hv, hvb⟩ := List.any_eq_true.mp hB
    obtain ⟨r, hr, hveq⟩ := List.mem_map.mp hv
    have hshape : ∃ d, v = vDate d := by
      cases hx : getCell r "epoch" <;>
        rw [← hveq, hx] at hvb ⊢ <;>
        simp [ts_date, pd_isna] at hvb ⊢
    obtain ⟨d, rfl⟩ := hshape
    have hAll : ((rows.map (fun r => ts_date (getCell r "epoch"))).filter
        (fun v => !pd_isna v)).all isTsV = false := by
      refine List.all_eq_false.mpr ⟨vDate d, ?_, by simp [isTsV]⟩
      exact List.mem_filter.mpr ⟨hv, by simp [pd_isna]⟩
    simp [hAll]
  · have hB2 : (rows.map (fun r => ts_date (getCell r "epoch"))).any
        (fun v => !pd_isna v) = false := by
      cases hx : (rows.map (fun r => ts_date (getCell r "epoch"))).any
          (fun v => !pd_isna v)
      · rfl
      · exact absurd hx hB
    simp [hB2]

/-- C3: for every normalized row with a non-null (timestamp) value in the
designated field `epoch`, the derived partition column `epoch_date` equals
the UTC calendar day of that timestamp and the row is written under the
partition group labeled with exactly that date; for every row with a null
`epoch`, the partition cell is null and the row lands only in groups not
keyed by a date.  (The second hypothesis states that no raw record carries
a literal `epoch_date` field — true of the dataset's JSON records, where
`epoch_date` exists only as the derived column.) -/
theorem epoch_partition (records : List Value) (df : DF)
    (hn : normalize_chunk records = some df)
    (hcol : (json_normalize records).columns.contains "epoch_date" = false)
    (r : Row) (hr : r ∈ df.rows) :
    (∀ us, getCell r "epoch" = vTimestamp us →
      getCell r "epoch_date" = vDate (Int.fdiv us usPerDay) ∧
      ∃ g ∈ write_chunk df, g.1 = some (Int.fdiv us usPerDay) ∧ r ∈ g.2) ∧
    (getCell r "epoch" = vNull →
      getCell r "epoch_date" = vNull ∧
      ∀ g ∈ write_chunk df, r ∈ g.2 → g.1 = none) := by
  rw [normalize_chunk_eq] at hn
  cases hpre : normalizePre records with
  | none => rw [hpre] at hn; simp at hn
  | some df8 =>
    rw [hpre] at hn
    simp only [Option.map_some', Option.some.injEq] at hn
    subst hn
    have hkp := normalizePre_keysPreserved hpre
    have hcover : colsCover df8 :=
      colsCover_of_keysPreserved hkp (colsCover_json_normalize records)
    by_cases heq : df8.columns.contains "epoch" = true
    · -- epoch present: the partition column is derived for every row
      have hrmem := hr
      rw [setColDate_rows heq] at hr
      obtain ⟨r0, hr0, rfl⟩ := List.mem_map.mp hr
      have hepoch : getCell (setCell r0 "epoch_date" (ts_date (getCell r0 "epoch"))) "epoch"
          = getCell r0 "epoch" := getCell_setCell_ne (by decide) r0 _
      have hedate : getCell (setCell r0 "epoch_date" (ts_date (getCell r0 "epoch"))) "epoch_date"
          = ts_date (getCell r0 "epoch") := getCell_setCell_self r0 _ _
      have hwc : write_chunk (setColDate df8) = (distinctLabels (setColDate df8).rows).map
          (fun l => (l, (setColDate df8).rows.filter (fun r2 => partitionLabel r2 = l))) := by
        refine write_chunk_partitioned (List.ne_nil_of_mem hrmem)
          (setColDate_contains_epoch_date heq) ?_
        rw [colCells_setColDate heq]
        exact colIsDatetime_ts_date df8.rows
      constructor
      · intro us hus
        rw [hepoch] at hus
        have hedate2 : getCell (setCell r0 "epoch_date" (ts_date (getCell r0 "epoch")))
            "epoch_date" = vDate (Int.fdiv us usPerDay) := by
          rw [hedate, hus]; rfl
        refine ⟨hedate2, ?_⟩
        have hlbl : partitionLabel (setCell r0 "epoch_date" (ts_date (getCell r0 "epoch")))
            = some (Int.fdiv us usPerDay) := by
          unfold partitionLabel
          rw [hedate2]
        rw [hwc]
        refine ⟨(partitionLabel (setCell r0 "epoch_date" (ts_date (getCell r0 "epoch"))),
          (setColDate df8).rows.filter (fun r2 => partitionLabel r2
            = partitionLabel (setCell r0 "epoch_date" (ts_date (getCell r0 "epoch"))))),
          ?_, ?_, ?_⟩
        · exact List.mem_map_of_mem _ (mem_distinctLabels [] hrmem)
        · exact hlbl
        · exact List.mem_filter.mpr ⟨hrmem, by simp⟩
      · intro hus
        rw [hepoch] at hus
        have hedate2 : getCell (setCell r0 "epoch_date" (ts_date (getCell r0 "epoch")))
            "epoch_date" = vNull := by
          rw [hedate, hus]; rfl
        refine ⟨hedate2, ?_⟩
        have hlbl : partitionLabel (setCell r0 "epoch_date" (ts_date (getCell r0 "epoch")))
            = none := by
          unfold partitionLabel
          rw [hedate2]
        rw [hwc]
        intro g hg hrg
        obtain ⟨l, _, rfl⟩ := List.mem_map.mp hg
        have hfl := (List.mem_filter.mp hrg).2
        have : partitionLabel (setCell r0 "epoch_date" (ts_date (getCell r0 "epoch"))) = l :=
          of_decide_eq_true hfl
        rw [← this, hlbl]
    · -- epoch absent: nothing is derived and nothing is partitioned
      have heq' : df8.columns.contains "epoch" = false := by
        cases hx : df8.columns.contains "epoch"
        · rfl
        · exact absurd hx heq
      rw [setColDate_not heq'] at hr ⊢
      constructor
      · intro us hus
        exfalso
        have hne : getCell r "epoch" ≠ vNull := by rw [hus]; exact fun hc => by cases hc
        have hmem := mem_of_lookup_eq_some (lookup_of_getCell_ne hne)
        exact heq (hcover r hr _ hmem)
      · intro _
        have hcd8 : df8.columns.contains "epoch_date" = false := by
          rw [hkp.1]; exact hcol
        have hedate : getCell r "epoch_date" = vNull := by
          by_contra hne
          have hmem := mem_of_lookup_eq_some (lookup_of_getCell_ne hne)
          have hcv := hcover r hr _ hmem
          rw [hcd8] at hcv
          exact Bool.false_ne_true hcv
        refine ⟨hedate, ?_⟩
        rw [write_chunk_unpartitioned (List.ne_nil_of_mem hr) hcd8]
        intro g hg _
        simp only [List.mem_singleton] at hg
        rw [hg]

/-- Witness for C3 at the concrete batch `c3recs`: the row whose `epoch`
parses to 2024-01-01T00:00:00Z carries `epoch_date` = day 19723 and lands
in the partition group of that date. -/
theorem epoch_partition_witness :
    getCell c3row "epoch_date" = vDate (Int.fdiv 1704067200000000 usPerDay) ∧
    ∃ g ∈ write_chunk c3df, g.1 = some (Int.fdiv 1704067200000000 usPerDay) ∧ c3row ∈ g.2 :=
  (epoch_partition c3recs c3df (by decide) (by decide) c3row (by decide)).1
    1704067200000000 (by decide)

/-! ## Cell tracking through the normalizer (always-string columns) -/

/-- `mapCol` on another column never moves a tracked cell. -/
theorem cellAt_mapCol_ne {c c0 : String} (h : c ≠ c0) (f : Value → Value) (df : DF) (i : Nat) :
    cellAt (mapCol c0 f df) i c = cellAt df i c := by
  unfold mapCol
  split
  · unfold cellAt rowAt
    exact getCell_getD_map _ _ (fun x => x) (fun r => getCell_rowMap_ne h f r) rfl df.rows i
  · rfl

/-- `mapCol` either leaves a tracked cell alone or applies its action. -/
theorem cellAt_mapCol_or {c c0 : String} {f : Value → Value} (hf : f vNull = vNull)
    (df : DF) (i : Nat) :
    cellAt (mapCol c0 f df) i c = cellAt df i c ∨
    cellAt (mapCol c0 f df) i c = f (cellAt df i c) := by
  by_cases h : c = c0
  · subst h
    unfold mapCol
    split
    · right
      unfold cellAt rowAt
      exact getCell_getD_map _ _ f (fun r => getCell_rowMap_self hf r) hf df.rows i
    · left; rfl
  · left
    exact cellAt_mapCol_ne h f df i

/-- A fold whose stages can only apply a fixpoint action leaves the
tracked cell unchanged. -/
theorem cellAt_foldl_fix {β : Type} {g : DF → β → DF} {i : Nat} {c : String}
    {tf : Value → Value} :
    ∀ (l : List β) (df : DF),
      (∀ acc, ∀ b ∈ l, cellAt (g acc b) i c = cellAt acc i c ∨
        cellAt (g acc b) i c = tf (cellAt acc i c)) →
      tf (cellAt df i c) = cellAt df i c →
      cellAt (l.foldl g df) i c = cellAt df i c := by
  intro l
  induction l with
  | nil => intro df _ _; rfl
  | cons b bs ih =>
    intro df h hfix
    rw [List.foldl_cons]
    have hstep : cellAt (g df b) i c = cellAt df i c := by
      rcases h df b (List.mem_cons_self _ _) with h1 | h2
      · exact h1
      · rw [h2, hfix]
    rw [ih (g df b) (fun acc b2 hb2 => h acc b2 (List.mem_cons_of_mem _ hb2))
      (by rw [hstep, hfix]), hstep]

/-- A fold whose stages never touch the tracked cell leaves it unchanged. -/
theorem cellAt_foldl_ne {β : Type} {g : DF → β → DF} {i : Nat} {c : String} :
    ∀ (l : List β) (df : DF),
      (∀ acc, ∀ b ∈ l, cellAt (g acc b) i c = cellAt acc i c) →
      cellAt (l.foldl g df) i c = cellAt df i c := by
  intro l
  induction l with
  | nil => intro df _; rfl
  | cons b bs ih =>
    intro df h
    rw [List.foldl_cons,
      ih (g df b) (fun acc b2 hb2 => h acc b2 (List.mem_cons_of_mem _ hb2)),
      h df b (List.mem_cons_self _ _)]

/-- A successful `mapColE` on another column never moves a tracked cell. -/
theorem cellAt_mapColE_ne {c c0 : String} (h : c ≠ c0) {f : Value → Option Value}
    {df df' : DF} (hm : mapColE c0 f df = some df') (i : Nat) :
    cellAt df' i c = cellAt df i c := by
  unfold mapColE at hm
  split at hm
  · cases hmo : mapOpt (rowMapE c0 f) df.rows with
    | none => rw [hmo] at hm; simp at hm
    | some rs =>
      rw [hmo] at hm
      simp only [Option.map_some', Option.some.injEq] at hm
      rw [← hm]
      unfold cellAt rowAt
      exact getCell_rowMapE_ne h (mapOpt_getD (rowMapE_nil c0 f) hmo i)
  · simp only [Option.some.injEq] at hm
    rw [← hm]

/-- A successful nullable-int fold over other columns never moves a
tracked cell. -/
theorem cellAt_foldColsE_ne {c : String} {f : Value → Option Value} :
    ∀ (cols : List String) {df df' : DF}, (∀ b ∈ cols, c ≠ b) →
      foldColsE cols f df = some df' → ∀ i, cellAt df' i c = cellAt df i c := by
  intro cols
  induction cols with
  | nil =>
    intro df df' _ h i
    simp only [foldColsE, Option.some.injEq] at h
    rw [← h]
  | cons c0 cs ih =>
    intro df df' hne h i
    simp only [foldColsE] at h
    cases hm : mapColE c0 f df with
    | none => rw [hm] at h; simp at h
    | some df2 =>
      rw [hm] at h
      change foldColsE cs f df2 = some df' at h
      rw [ih (fun b hb => hne b (List.mem_cons_of_mem _ hb)) h i]
      exact cellAt_mapColE_ne (hne c0 (List.mem_cons_self _ _)) hm i

/-- The partition stage never moves a cell of another column. -/
theorem cellAt_setColDate_ne {c : String} (h : c ≠ "epoch_date") (df : DF) (i : Nat) :
    cellAt (setColDate df) i c = cellAt df i c := by
  unfold setColDate
  split
  · unfold cellAt rowAt
    exact getCell_getD_map _ _ (fun x => x)
      (fun r => getCell_setCell_ne h r _) rfl df.rows i
  · rfl

/-- The flattened batch reads positionally from the records. -/
theorem cellAt_json_normalize (records : List Value) (i : Nat) (c : String) :
    cellAt (json_normalize records) i c = getCell (flattenRecord (records.getD i vNull)) c := by
  unfold cellAt rowAt json_normalize
  show getCell ((records.map flattenRecord).getD i []) c = _
  induction records generalizing i with
  | nil => simp [List.getD_nil, flattenRecord]
  | cons rec rs ih =>
    cases i with
    | zero => simp
    | succ j => simpa using ih j

/-- The auto-stringify pass fixes any cell its action already fixes. -/
theorem cellAt_stepAutoStringify_fix {df : DF} {i : Nat} {c : String}
    (hfix : stringifyObjCell (cellAt df i c) = cellAt df i c) :
    cellAt (stepAutoStringify df) i c = cellAt df i c := by
  unfold stepAutoStringify
  refine cellAt_foldl_fix df.columns df (fun acc b _ => ?_) hfix
  dsimp only
  split
  · split
    · exact cellAt_mapCol_or rfl acc i
    · left; rfl
  · left; rfl

/-- The metadata-string pass applies `_to_text` to a present `uct`
column's cells. -/
theorem cellAt_stepAlwaysStr_uct {df : DF} (h : df.columns.contains "uct" = true)
    (i : Nat) :
    cellAt (stepAlwaysStr df) i "uct" = _to_text (cellAt df i "uct") := by
  unfold stepAlwaysStr ALWAYS_STR_COLUMNS
  rw [List.foldl_cons]
  have h1 : cellAt (mapCol "uct" _to_text df) i "uct" = _to_text (cellAt df i "uct") := by
    unfold mapCol
    rw [if_pos h]
    unfold cellAt rowAt
    exact getCell_getD_map _ _ _to_text (fun r => getCell_rowMap_self rfl r) rfl df.rows i
  have hne : ∀ b ∈ ["classificationMarking", "origin", "source", "sourceDL",
      "descriptor", "createdBy", "transactionId", "tags"], "uct" ≠ b := by decide
  rw [cellAt_foldl_ne _ _ (fun acc b hb => cellAt_mapCol_ne (hne b hb) _to_text acc i), h1]

/-- The sanitize pass skips always-string columns and other columns'
stages never move the tracked cell. -/
theorem cellAt_stepSanitize_astr {df : DF} {c : String}
    (hc : ALWAYS_STR_COLUMNS.contains c = true) (i : Nat) :
    cellAt (stepSanitize df) i c = cellAt df i c := by
  unfold stepSanitize
  refine cellAt_foldl_ne df.columns df (fun acc b _ => ?_)
  dsimp only
  by_cases hbc : b = c
  · subst hbc
    have hmem : b ∈ ALWAYS_STR_COLUMNS := List.elem_iff.mp hc
    rw [if_neg (by simp [hmem])]
  · split
    · split
      · exact cellAt_mapCol_ne (fun hcb => hbc hcb.symm) _to_text acc i
      · rfl
    · rfl

/-- Keys produced by one-level flattening of a nested object always carry
the delimiter, so they never collide with `uct`. -/
theorem dotted_ne_uct (k g : String) : k ++ "." ++ g ≠ "uct" := by
  intro h
  have hdot : '.' ∈ (k ++ "." ++ g).data := by
    simp [String.data_append]
  rw [h] at hdot
  exact absurd hdot (by decide)

/-- Flattening a record whose head field is a nested object. -/
theorem flattenRecord_cons_dict (k : String) (gs : VFields) (fs : VFields) :
    flattenRecord (vDict (.cons k (vDict gs) fs))
      = (VFields.toList gs).map (fun g => (k ++ "." ++ g.1, g.2))
        ++ flattenRecord (vDict fs) := by
  simp [flattenRecord, VFields.toList, List.flatMap_cons]

/-- Flattening a record whose head field is not a nested object. -/
theorem flattenRecord_cons_scalar (k : String) (w : Value) (fs : VFields)
    (hw : ∀ gs, w ≠ vDict gs) :
    flattenRecord (vDict (.cons k w fs)) = (k, w) :: flattenRecord (vDict fs) := by
  cases w <;> first
    | exact absurd rfl (hw _)
    | simp [flattenRecord, VFields.toList, List.flatMap_cons]

/-- Cell access skips a prefix whose keys all differ from the column. -/
theorem getCell_append_of_ne {c : String} :
    ∀ {l1 l2 : Row}, (∀ kv ∈ l1, kv.1 ≠ c) → getCell (l1 ++ l2) c = getCell l2 c := by
  intro l1
  induction l1 with
  | nil => intro l2 _; rfl
  | cons kv l1 ih =>
    intro l2 h
    obtain ⟨k, w⟩ := kv
    rw [List.cons_append, getCell_cons,
      if_neg (fun hck => h (k, w) (List.mem_cons_self _ _) hck.symm)]
    exact ih (fun kv2 hkv2 => h kv2 (List.mem_cons_of_mem _ hkv2))

/-- The flattened row's `uct` cell is the record's `uct` field, whenever
that field is not itself a nested object. -/
theorem getCell_flattenRecord_uct :
    ∀ (fs : VFields) (v : Value), (VFields.toList fs).lookup "uct" = some v →
      (∀ gs, v ≠ vDict gs) → getCell (flattenRecord (vDict fs)) "uct" = v
  | .nil, v, hv, _ => by simp [VFields.toList, List.lookup] at hv
  | .cons k w fs, v, hv, hnd => by
    by_cases hk : "uct" = k
    · have hb : ("uct" == k) = true := by simp [hk]
      simp only [VFields.toList, List.lookup, hb, Option.some.injEq] at hv
      rw [flattenRecord_cons_scalar k w fs (hv ▸ hnd), getCell_cons, if_pos hk, hv]
    · have hb : ("uct" == k) = false := by simp [hk]
      simp only [VFields.toList, List.lookup, hb] at hv
      by_cases hw : ∃ gs, w = vDict gs
      · obtain ⟨gs, rfl⟩ := hw
        rw [flattenRecord_cons_dict k gs fs, getCell_append_of_ne ?hpre]
        · exact getCell_flattenRecord_uct fs v hv hnd
        · intro kv hkv
          obtain ⟨g, _, rfl⟩ := List.mem_map.mp hkv
          exact dotted_ne_uct k g.1
      · rw [flattenRecord_cons_scalar k w fs (fun gs h => hw ⟨gs, h⟩), getCell_cons,
          if_neg hk]
        exact getCell_flattenRecord_uct fs v hv hnd

/-- A non-object field of a record survives flattening as its own entry. -/
theorem mem_flattenRecord_of_mem :
    ∀ (fs : VFields) (kv : String × Value), kv ∈ VFields.toList fs →
      (∀ gs, kv.2 ≠ vDict gs) → kv ∈ flattenRecord (vDict fs)
  | .nil, kv, hkv, _ => by simp [VFields.toList] at hkv
  | .cons k w fs, kv, hkv, hnd => by
    rcases List.mem_cons.mp hkv with rfl | htail
    · rw [flattenRecord_cons_scalar k w fs hnd]
      exact List.mem_cons_self _ _
    · by_cases hw : ∃ gs, w = vDict gs
      · obtain ⟨gs, rfl⟩ := hw
        rw [flattenRecord_cons_dict k gs fs]
        exact List.mem_append_right _ (mem_flattenRecord_of_mem fs kv htail hnd)
      · rw [flattenRecord_cons_scalar k w fs (fun gs h => hw ⟨gs, h⟩)]
        exact List.mem_cons_of_mem _ (mem_flattenRecord_of_mem fs kv htail hnd)

/-- C8: for every record whose `uct` field (a column of the fixed
always-string list) holds a boolean, the normalized output cell is the
literal string `"true"` / `"false"`; a byte-sequence value decodes as
UTF-8 with replacement on error; a null value stays null. -/
theorem uct_forced_to_string (records : List Value) (df : DF)
    (hn : normalize_chunk records = some df)
    (i : Nat) (fs : VFields) (hrec : records.getD i vNull = vDict fs)
    (v : Value) (hv : (VFields.toList fs).lookup "uct" = some v) :
    (∀ b, v = vBool b → cellAt df i "uct" = vStr (if b then "true" else "false")) ∧
    (∀ bs, v = vBytes bs → cellAt df i "uct" = vStr (utf8DecodeReplace bs)) ∧
    (v = vNull → cellAt df i "uct" = vNull) := by
  rw [normalize_chunk_eq] at hn
  cases hpre : normalizePre records with
  | none => rw [hpre] at hn; simp at hn
  | some df8 =>
    rw [hpre] at hn
    simp only [Option.map_some', Option.some.injEq] at hn
    subst hn
    unfold normalizePre at hpre
    rw [reindexKeep_eq] at hpre
    cases hint : stepInts (stepFloats (stepAutoStringify (stepObjecty
        (json_normalize records)))) with
    | none => rw [hint] at hpre; simp at hpre
    | some df5 =>
      rw [hint] at hpre
      simp only [Option.some.injEq] at hpre
      subst hpre
      unfold stepInts at hint
      have hmain : ∀ (hnd : ∀ gs, v ≠ vDict gs) (hfixv : stringifyObjCell v = v),
          cellAt (setColDate (stepDates (stepSanitize (stepAlwaysStr df5)))) i "uct"
            = _to_text v := by
        intro hnd hfixv
        -- the cell in the flattened batch
        have h0 : cellAt (json_normalize records) i "uct" = v := by
          rw [cellAt_json_normalize, hrec]
          exact getCell_flattenRecord_uct fs v hv hnd
        -- `uct` is one of the batch's columns
        have hilen : i < records.length := by
          by_contra hge
          rw [List.getD_eq_default records vNull (Nat.le_of_not_lt hge)] at hrec
          cases hrec
        have hrowmem : flattenRecord (records.getD i vNull) ∈ records.map flattenRecord := by
          rw [List.getD_eq_getElem records vNull hilen]
          exact List.mem_map_of_mem _ (List.getElem_mem hilen)
        have hentry : ("uct", v) ∈ flattenRecord (records.getD i vNull) := by
          rw [hrec]
          exact mem_flattenRecord_of_mem fs ("uct", v) (mem_of_lookup_eq_some hv) hnd
        have hcontains : (json_normalize records).columns.contains "uct" = true :=
          colsCover_json_normalize records _ hrowmem _ hentry
        -- column list is stable down to the always-string stage
        have k1 := keysPreserved_stepObjecty (json_normalize records)
        have k2 := keysPreserved_stepAutoStringify (stepObjecty (json_normalize records))
        have k3 := keysPreserved_stepFloats (stepAutoStringify (stepObjecty
          (json_normalize records)))
        have k4 := keysPreserved_foldColsE NUMERIC_AS_INT hint
        have hcols5 : df5.columns = (json_normalize records).columns :=
          k4.1.trans (k3.1.trans (k2.1.trans k1.1))
        have hcontains5 : df5.columns.contains "uct" = true := by
          rw [hcols5]; exact hcontains
        -- track the cell stage by stage
        have hne1 : ∀ b ∈ OBJECTY_TO_JSON, "uct" ≠ b := by decide
        have h2 : cellAt (stepObjecty (json_normalize records)) i "uct" = v := by
          unfold stepObjecty
          rw [cellAt_foldl_ne _ _
            (fun acc b hb => cellAt_mapCol_ne (hne1 b hb) stringifyObjCell acc i), h0]
        have hfix3 : stringifyObjCell (cellAt (stepObjecty (json_normalize records)) i "uct")
            = cellAt (stepObjecty (json_normalize records)) i "uct" := by
          rw [h2, hfixv]
        have h3 : cellAt (stepAutoStringify (stepObjecty (json_normalize records)))
            i "uct" = v := by
          rw [cellAt_stepAutoStringify_fix hfix3, h2]
        have hne4 : ∀ b ∈ NUMERIC_AS_FLOAT, "uct" ≠ b := by decide
        have h4 : cellAt (stepFloats (stepAutoStringify (stepObjecty
            (json_normalize records)))) i "uct" = v := by
          unfold stepFloats
          rw [cellAt_foldl_ne _ _
            (fun acc b hb => cellAt_mapCol_ne (hne4 b hb) pd_to_numeric_val acc i), h3]
        have hne5 : ∀ b ∈ NUMERIC_AS_INT, "uct" ≠ b := by decide
        have h5 : cellAt df5 i "uct" = v := by
          rw [cellAt_foldColsE_ne NUMERIC_AS_INT hne5 hint i, h4]
        have h6 : cellAt (stepAlwaysStr df5) i "uct" = _to_text v := by
          rw [cellAt_stepAlwaysStr_uct hcontains5 i, h5]
        have h7 : cellAt (stepSanitize (stepAlwaysStr df5)) i "uct" = _to_text v := by
          rw [cellAt_stepSanitize_astr (by decide) i, h6]
        have hne8 : ∀ b ∈ DATE_COLS, "uct" ≠ b := by decide
        have h8 : cellAt (stepDates (stepSanitize (stepAlwaysStr df5))) i "uct"
            = _to_text v := by
          unfold stepDates
          rw [cellAt_foldl_ne _ _
            (fun acc b hb => cellAt_mapCol_ne (hne8 b hb) pd_to_datetime_val acc i), h7]
        rw [cellAt_setColDate_ne (by decide) _ i, h8]
      refine ⟨?_, ?_, ?_⟩
      · intro b hb
        subst hb
        rw [hmain (fun gs h => by cases h) rfl]
        rfl
      · intro bs hbs
        subst hbs
        rw [hmain (fun gs h => by cases h) rfl]
        rfl
      · intro hb
        subst hb
        rw [hmain (fun gs h => by cases h) rfl]
        rfl

/-- Witness for C8 at the concrete record `{"uct": true}`: the normalized
`uct` cell is the literal string `"true"`. -/
theorem uct_forced_to_string_witness : cellAt c8df 0 "uct" = vStr "true" :=
  (uct_forced_to_string c8recs c8df (by decide) 0
    (.cons "uct" (vBool true) .nil) (by decide) (vBool true) (by decide)).1 true rfl
